import Mathlib

/-!
Verification of the memory-storage repository: a shallow embedding of the
append-log store (BTreeIndexedStorage) and of the TTL-aware ordered index
(ByteKeyBTree, Item-based variant), together with proofs of the spec claims.

Modelling conventions:
* Go byte slices are modelled as `Option (List Nat)`: `none` is the nil
  slice, `some bs` a (possibly empty) non-nil slice.  The code distinguishes
  nil from non-nil (`val != nil` in CompactIncremental), never nil from
  empty-but-non-nil where it matters to a claim.
* The append-log store keys are `[8]byte` arrays ordered by `bytes.Compare`;
  on fixed-length arrays that order coincides with the numeric order of the
  big-endian value, so a key is modelled by that value, a `Nat`.  Both
  equality and the ordering used by the B-tree are preserved exactly.
* The google/btree ordered index is modelled as a list of entries kept
  strictly sorted by key; `Get`/`ReplaceOrInsert`/`Delete`/`Ascend` become
  the corresponding sorted-list operations, which have identical observable
  behaviour on sorted data.
* All operations are serialised: every public Go operation runs under the
  store's lock, so the sequential embedding is the per-operation semantics.
  The detached `go s.CompactIncremental()` fired inside `Delete` is an
  asynchronous task and is not part of `Delete`'s own state transition; the
  claims exercise `CompactIncremental` explicitly.
* `time.Time` and `time.Duration` are modelled in whole Unix seconds
  (`Int`), matching the granularity at which the code stores timestamps
  (`Unix()`); every quantity in the claims is a whole number of seconds.
-/

namespace AppendLog

/-- A Go byte slice: `none` is nil, `some bs` a non-nil slice. -/
abbrev GoBytes := Option (List Nat)

/-- The `entry` struct of the store: an 8-byte key (modelled by its
big-endian numeric value) and a position into the backing storage. -/
structure LogEntry where
  k : Nat
  pos : Nat
deriving Repr, DecidableEq

/-- The `BTreeIndexedStorage` struct.  `tree` is the btree as a sorted
entry list, `storage` the backing value log, `tombstones` the deleted
counter; `threshold`, `degree` and `batchSize` are the configuration
fields (the float64 threshold is modelled as a rational). -/
structure BTreeIndexedStorage where
  tree : List LogEntry
  storage : List GoBytes
  tombstones : Int
  threshold : Rat
  degree : Int
  batchSize : Int
deriving Repr, DecidableEq

/-- Constructor mirroring `NewBTreeIndexedStorage`; `capacity` only
pre-sizes an allocation and has no observable effect. -/
def NewBTreeIndexedStorage (degree : Int) (_capacity : Int) (threshold : Rat)
    (batchSize : Int) : BTreeIndexedStorage :=
  { tree := [], storage := [], tombstones := 0,
    threshold := threshold, degree := degree, batchSize := batchSize }

/-- Lookup in the ordered index (`tree.Get`), by the `bytes.Compare`
order on keys, on the sorted entry list. -/
def treeGet : List LogEntry → Nat → Option LogEntry
  | [], _ => none
  | x :: xs, k =>
    if k < x.k then none
    else if x.k < k then treeGet xs k
    else some x

/-- Insertion in the ordered index (`tree.ReplaceOrInsert`) on the sorted
entry list: an entry with an equal key is replaced. -/
def treeInsert : List LogEntry → LogEntry → List LogEntry
  | [], e => [e]
  | x :: xs, e =>
    if e.k < x.k then e :: x :: xs
    else if x.k < e.k then x :: treeInsert xs e
    else e :: xs

/-- Deletion in the ordered index (`tree.Delete`): returns the removed
entry (if any) and the remaining tree. -/
def treeDelete : List LogEntry → Nat → Option LogEntry × List LogEntry
  | [], _ => (none, [])
  | x :: xs, k =>
    if k < x.k then (none, x :: xs)
    else if x.k < k then
      let r := treeDelete xs k
      (r.1, x :: r.2)
    else (some x, xs)

/-- The `Add` method: a no-op when the key is already present, otherwise
the value is appended to the backing log and an entry inserted at the
fresh position. -/
def Add (s : BTreeIndexedStorage) (index : Nat) (value : GoBytes) :
    BTreeIndexedStorage :=
  match treeGet s.tree index with
  | some _ => s
  | none =>
    { s with storage := s.storage ++ [value],
             tree := treeInsert s.tree ⟨index, s.storage.length⟩ }

/-- The `Get` method: `(nil, false)` when the key is absent, otherwise the
slot contents (which may be nil) with `found = true`. -/
def Get (s : BTreeIndexedStorage) (index : Nat) : GoBytes × Bool :=
  match treeGet s.tree index with
  | none => (none, false)
  | some e => (s.storage.getD e.pos none, true)

/-- The `Delete` method: removes the entry from the index, clears its slot
to nil and increments the tombstone counter.  The detached background
compaction it may spawn is an asynchronous task, not part of this state
transition. -/
def Delete (s : BTreeIndexedStorage) (index : Nat) : BTreeIndexedStorage :=
  let r := treeDelete s.tree index
  match r.1 with
  | some e =>
    { s with tree := r.2,
             storage := s.storage.set e.pos none,
             tombstones := s.tombstones + 1 }
  | none => s

/-- The `Len` method: the number of index entries. -/
def Len (s : BTreeIndexedStorage) : Nat := s.tree.length

/-- The `Ascend` closure of `CompactIncremental`: visits entries in
ascending key order, copies each non-nil slot to the next fresh position,
counts every visited entry and stops once `batchSize > 0` entries have
been visited.  Returns the new storage, the new tree and the count. -/
def compactScan (storage : List GoBytes) (batchSize : Int) :
    List LogEntry → List GoBytes → List LogEntry → Int →
    List GoBytes × List LogEntry × Int
  | [], ns, nt, c => (ns, nt, c)
  | e :: rest, ns, nt, c =>
    let val := storage.getD e.pos none
    let st2 : List GoBytes × List LogEntry :=
      if val = none then (ns, nt)
      else (ns ++ [val], treeInsert nt ⟨e.k, ns.length⟩)
    let c2 := c + 1
    if 0 < batchSize ∧ batchSize ≤ c2 then (st2.1, st2.2, c2)
    else compactScan storage batchSize rest st2.1 st2.2 c2

/-- The unbounded rebuild pass: the scan of `CompactIncremental` without
the batch cut-off (exactly the `batchSize == 0` path).  Used to state what
the partial output of an interrupted compaction is built from. -/
def rebuildFrom (storage : List GoBytes) :
    List LogEntry → List GoBytes → List LogEntry →
    List GoBytes × List LogEntry
  | [], ns, nt => (ns, nt)
  | e :: rest, ns, nt =>
    let val := storage.getD e.pos none
    if val = none then rebuildFrom storage rest ns nt
    else rebuildFrom storage rest (ns ++ [val]) (treeInsert nt ⟨e.k, ns.length⟩)

/-- The `CompactIncremental` method.  Note both arms of the final `if` in
the source perform the same assignments; the branch is kept to mirror the
code. -/
def CompactIncremental (s : BTreeIndexedStorage) : BTreeIndexedStorage :=
  let r := compactScan s.storage s.batchSize s.tree [] [] 0
  if r.2.2 < s.batchSize ∨ s.batchSize = 0 then
    { s with storage := r.1, tree := r.2.1, tombstones := 0 }
  else
    { s with storage := r.1, tree := r.2.1, tombstones := 0 }

/-- Well-formedness of a store: index keys strictly sorted (the B-tree
invariant), every entry position inside the backing log, and positions
pairwise distinct. -/
def WF (s : BTreeIndexedStorage) : Prop :=
  s.tree.Pairwise (fun a b => a.k < b.k) ∧
  (∀ e ∈ s.tree, e.pos < s.storage.length) ∧
  (s.tree.map LogEntry.pos).Nodup

instance (s : BTreeIndexedStorage) : Decidable (WF s) := by
  unfold WF; infer_instance

/-- All indexed slots hold a non-nil value (true after adds of non-nil
values and deletes, since a delete also removes the index entry). -/
def SlotsLive (s : BTreeIndexedStorage) : Prop :=
  ∀ e ∈ s.tree, s.storage.getD e.pos none ≠ none

/-- Sortedness of an entry list by strictly increasing keys. -/
def sortedK (t : List LogEntry) : Prop :=
  t.Pairwise (fun a b => a.k < b.k)

/-- A sequence of `Add` calls, each with a non-nil value. -/
def applyAdds (s : BTreeIndexedStorage) : List (Nat × List Nat) → BTreeIndexedStorage
  | [] => s
  | (k, v) :: rest => applyAdds (Add s k (some v)) rest

/-- A sequence of `Delete` calls. -/
def applyDeletes (s : BTreeIndexedStorage) : List Nat → BTreeIndexedStorage
  | [] => s
  | k :: rest => applyDeletes (Delete s k) rest

/-- Reassignment of dense positions `start, start+1, ...` to a list of
entries, in order: the shape of the index produced by a compaction pass. -/
def renumber (start : Nat) : List LogEntry → List LogEntry
  | [] => []
  | e :: rest => ⟨e.k, start⟩ :: renumber (start + 1) rest

/-- The liveness test of the compaction scan: the slot holds a non-nil
value. -/
def liveSlot (storage : List GoBytes) (e : LogEntry) : Bool :=
  storage.getD e.pos none != none

end AppendLog

/-- The `bytes.Compare` order on byte strings (lexicographic, byte-wise):
used by every `Less` method of the TTL index records. -/
def bytesCmp : List Nat → List Nat → Ordering
  | [], [] => .eq
  | [], _ :: _ => .lt
  | _ :: _, [] => .gt
  | a :: as, b :: bs =>
    if a < b then .lt
    else if b < a then .gt
    else bytesCmp as bs

namespace TTL

/-!
The Item-based `ByteKeyBTree` (the TTL index), value-level embedding: an
`Item` is its record contents (`ValueNodeItem`: key, value, expiration
timestamp; a `FilterNodeItem` is the variant with `valueBytes = none` —
ordering and TTL logic never inspect the value, so one structure models
both variants), and the btree is the list of items strictly sorted by
`bytes.Compare` on keys.  Go interface values can be nil, so parameters of
type `Item` become `Option TItem`; `none` models the nil interface, on
which any method call panics.  A function that can panic returns an
`Option` result, `none` meaning the panic; partial mutations made before
a panic are not observable through the poisoned lock and are dropped.
-/

/-- An Item record of the TTL index: byte key, optional payload and the
expiration timestamp in unix seconds. -/
structure TItem where
  keyBytes : List Nat
  valueBytes : Option (List Nat)
  timestampUnixSeconds : Int
deriving Repr, DecidableEq

/-- Sortedness of the item list by strictly increasing keys. -/
def sortedItems (t : List TItem) : Prop :=
  t.Pairwise (fun a b => bytesCmp a.keyBytes b.keyBytes = Ordering.lt)

instance (t : List TItem) : Decidable (sortedItems t) := by
  unfold sortedItems; infer_instance

/-- Lookup (`tree.Get`) by key order on the sorted item list. -/
def itemGet : List TItem → List Nat → Option TItem
  | [], _ => none
  | x :: xs, k =>
    if bytesCmp k x.keyBytes = Ordering.lt then none
    else if bytesCmp k x.keyBytes = Ordering.gt then itemGet xs k
    else some x

/-- The `tree.ReplaceOrInsert` operation: returns the previous item with
an equal key (if any) and the updated tree. -/
def itemReplaceOrInsert : List TItem → TItem → Option TItem × List TItem
  | [], e => (none, [e])
  | x :: xs, e =>
    if bytesCmp e.keyBytes x.keyBytes = Ordering.lt then (none, e :: x :: xs)
    else if bytesCmp e.keyBytes x.keyBytes = Ordering.gt then
      let r := itemReplaceOrInsert xs e
      (r.1, x :: r.2)
    else (some x, e :: xs)

/-- The `tree.Delete` operation: returns the removed item (if any) and
the remaining tree. -/
def itemDelete : List TItem → List Nat → Option TItem × List TItem
  | [], _ => (none, [])
  | x :: xs, k =>
    if bytesCmp k x.keyBytes = Ordering.lt then (none, x :: xs)
    else if bytesCmp k x.keyBytes = Ordering.gt then
      let r := itemDelete xs k
      (r.1, x :: r.2)
    else (some x, xs)

/-- The `UpsertAt` method: nil and empty-key items are rejected, the
caller's item gets its expiration set and replaces or joins the tree;
returns whether the key was new. -/
def UpsertAt (t : List TItem) (item : Option TItem) (ts : Int) :
    Bool × List TItem :=
  match item with
  | none => (false, t)
  | some it =>
    if it.keyBytes.length = 0 then (false, t)
    else
      let r := itemReplaceOrInsert t { it with timestampUnixSeconds := ts }
      (r.1.isNone, r.2)

/-- The loop body of `UpsertManyAt`: a nil item in the slice is
dereferenced (`item.Key()`) without a guard and panics. -/
def upsertManyLoop (t : List TItem) (at_ : Int) (added : Nat) :
    List (Option TItem) → Option (Nat × List TItem)
  | [] => some (added, t)
  | none :: _ => none
  | some it :: rest =>
    if it.keyBytes.length = 0 then upsertManyLoop t at_ added rest
    else
      let r := itemReplaceOrInsert t { it with timestampUnixSeconds := at_ }
      upsertManyLoop r.2 at_ (if r.1.isNone then added + 1 else added) rest

/-- The `UpsertManyAt` method: applies one timestamp to every item,
counting the really-new keys; `none` is the panic on a nil item. -/
def UpsertManyAt (t : List TItem) (items : List (Option TItem)) (at_ : Int) :
    Option (Nat × List TItem) :=
  if items.length = 0 then some (0, t)
  else upsertManyLoop t at_ 0 items

/-- The `Delete` method: nil and empty-key items are rejected. -/
def Delete (t : List TItem) (item : Option TItem) : Bool × List TItem :=
  match item with
  | none => (false, t)
  | some it =>
    if it.keyBytes.length = 0 then (false, t)
    else
      let r := itemDelete t it.keyBytes
      (r.1.isSome, r.2)

/-- The loop body of `DeleteMany`: like `UpsertManyAt`, a nil item
panics on the unguarded `item.Key()` call. -/
def deleteManyLoop (t : List TItem) (deleted : Nat) :
    List (Option TItem) → Option (Nat × List TItem)
  | [] => some (deleted, t)
  | none :: _ => none
  | some it :: rest =>
    if it.keyBytes.length = 0 then deleteManyLoop t deleted rest
    else
      let r := itemDelete t it.keyBytes
      deleteManyLoop r.2 (if r.1.isSome then deleted + 1 else deleted) rest

/-- The `DeleteMany` method; `none` is the panic on a nil item. -/
def DeleteMany (t : List TItem) (items : List (Option TItem)) :
    Option (Nat × List TItem) :=
  if items.length = 0 then some (0, t)
  else deleteManyLoop t 0 items

/-- The `Size` method. -/
def Size (t : List TItem) : Nat := t.length

/-- The ascending collection scan shared by `PurgeExpiredAt` (candidate
phase) and `ListExpiredAt`: gathers items with `expiration <= cutoff`,
stopping early once `bound > 0` items are collected. -/
def collectExpired (cutoff bound : Int) : List TItem → List TItem → List TItem
  | [], acc => acc
  | x :: xs, acc =>
    if x.timestampUnixSeconds ≤ cutoff then
      let acc2 := acc ++ [x]
      if 0 < bound ∧ bound ≤ (acc2.length : Int) then acc2
      else collectExpired cutoff bound xs acc2
    else collectExpired cutoff bound xs acc

/-- The deletion phase of `PurgeExpiredAt`: deletes each collected item
by key, counting the successful deletions. -/
def deleteItems : List TItem → List TItem → Nat × List TItem
  | t, [] => (0, t)
  | t, c :: cs =>
    let r := itemDelete t c.keyBytes
    let rest := deleteItems r.2 cs
    ((if r.1.isSome then 1 else 0) + rest.1, rest.2)

/-- The `PurgeExpiredAt` method: no-op for `ttl <= 0`; otherwise collect
up to `maxToDelete` expired items (cutoff `now - ttl`, inclusive), then
delete them.  Times are in unix seconds. -/
def PurgeExpiredAt (t : List TItem) (now ttl maxToDelete : Int) :
    Nat × List TItem :=
  if ttl ≤ 0 then (0, t)
  else
    let cand := collectExpired (now - ttl) maxToDelete t []
    if cand.length = 0 then (0, t)
    else deleteItems t cand

/-- The `ListExpiredAt` method: nil for `ttl <= 0`; otherwise the live
items with `expiration <= now - ttl`, truncated at `maxCount > 0`. -/
def ListExpiredAt (t : List TItem) (now ttl maxCount : Int) : List TItem :=
  if ttl ≤ 0 then []
  else collectExpired (now - ttl) maxCount t []

end TTL

namespace TTLHeap

/-!
Object-identity embedding of the Item-based `ByteKeyBTree`, for the
claims about live record handles.  Go `Item` interface values are
pointers to record objects; here record objects live in an explicit
object heap (a list addressed by `Nat` references) and the btree stores
references.  `GetNodeItem` returning "the same underlying record object"
becomes returning the same reference.
-/

/-- A record object on the heap (contents as in `TTL.TItem`). -/
structure ItemObj where
  keyBytes : List Nat
  valueBytes : Option (List Nat)
  timestampUnixSeconds : Int
deriving Repr, DecidableEq

instance : Inhabited ItemObj := ⟨⟨[], none, 0⟩⟩

/-- State of the index: an object heap and the tree of references,
sorted by the key bytes of the referenced objects. -/
structure HState where
  heap : List ItemObj
  tree : List Nat
deriving Repr, DecidableEq

/-- The object referenced by `r` (references are always in range under
the well-formedness invariant). -/
def objAt (h : List ItemObj) (r : Nat) : ItemObj :=
  h.getD r default

/-- Key bytes of the object referenced by `r`. -/
def keyAt (h : List ItemObj) (r : Nat) : List Nat :=
  (objAt h r).keyBytes

/-- The `tree.ReplaceOrInsert` of a reference, ordered by the referenced
keys: returns the previous reference holding an equal key (if any). -/
def refReplaceOrInsert (h : List ItemObj) : List Nat → Nat → Option Nat × List Nat
  | [], r => (none, [r])
  | x :: xs, r =>
    if bytesCmp (keyAt h r) (keyAt h x) = Ordering.lt then (none, r :: x :: xs)
    else if bytesCmp (keyAt h r) (keyAt h x) = Ordering.gt then
      let t := refReplaceOrInsert h xs r
      (t.1, x :: t.2)
    else (some x, r :: xs)

/-- The `tree.Get` by key, returning the stored reference. -/
def refGet (h : List ItemObj) : List Nat → List Nat → Option Nat
  | [], _ => none
  | x :: xs, k =>
    if bytesCmp k (keyAt h x) = Ordering.lt then none
    else if bytesCmp k (keyAt h x) = Ordering.gt then refGet h xs k
    else some x

/-- The `UpsertAt` method: rejects nil and empty keys, sets the caller
object's expiration in place (`SetExpirationTime`) and hands that very
object to `ReplaceOrInsert`. -/
def UpsertAt (st : HState) (item : Option Nat) (ts : Int) : Bool × HState :=
  match item with
  | none => (false, st)
  | some r =>
    if (keyAt st.heap r).length = 0 then (false, st)
    else
      let h2 := st.heap.set r { objAt st.heap r with timestampUnixSeconds := ts }
      let t2 := refReplaceOrInsert h2 st.tree r
      (t2.1.isNone, { heap := h2, tree := t2.2 })

/-- The `GetNodeItem` method: rejects nil and empty keys, returns the
reference stored in the tree (the live record object), not a copy. -/
def GetNodeItem (st : HState) (item : Option Nat) : Option Nat :=
  match item with
  | none => none
  | some r =>
    if (keyAt st.heap r).length = 0 then none
    else refGet st.heap st.tree (keyAt st.heap r)

/-- Well-formedness: tree references point into the heap and are sorted
strictly by the referenced keys. -/
def WFH (st : HState) : Prop :=
  (∀ r ∈ st.tree, r < st.heap.length) ∧
  st.tree.Pairwise (fun a b => bytesCmp (keyAt st.heap a) (keyAt st.heap b) = Ordering.lt)

instance (st : HState) : Decidable (WFH st) := by
  unfold WFH; infer_instance

end TTLHeap

namespace TTLSlice

/-!
Byte-slice-identity embedding of the TTL index, for the defensive-copy
claim about `ForEach`.  Key byte slices live in an explicit slice heap (a
list of byte strings addressed by `Nat` references); the tree stores a
key reference and the expiration timestamp per node.  `cloneBytes`
allocates a fresh cell holding a copy (Go returns nil for an empty
source, allocating nothing); the callback receives the fresh references,
and callback-side mutation writes arbitrary contents into cells it
received.
-/

/-- State: the slice heap and the tree of (key reference, timestamp)
nodes in ascending key order. -/
structure SState where
  heap : List (List Nat)
  tree : List (Nat × Int)
deriving Repr, DecidableEq

/-- The `cloneBytes` helper: nil result (no allocation) for an empty
source, otherwise a fresh cell holding a copy of the bytes. -/
def cloneAlloc (h : List (List Nat)) (src : List Nat) :
    List (List Nat) × Option Nat :=
  if src.length = 0 then (h, none) else (h ++ [src], some h.length)

/-- The traversal of `ForEach`: visits nodes in tree order, clones each
key into a fresh cell and passes that reference to the callback.
Returns the heap after all clone allocations and the references passed
out. -/
def forEachClone (h : List (List Nat)) : List (Nat × Int) → List (List Nat) × List Nat
  | [] => (h, [])
  | x :: rest =>
    let c := cloneAlloc h (h.getD x.1 [])
    let r := forEachClone c.1 rest
    match c.2 with
    | some ref => (r.1, ref :: r.2)
    | none => (r.1, r.2)

/-- Callback-side mutation: for each reference the callback received, it
may overwrite the cell contents arbitrarily. -/
def mutateCells (f : Nat → Option (List Nat)) : List (List Nat) → List Nat → List (List Nat)
  | h, [] => h
  | h, r :: rs =>
    mutateCells f (match f r with | some bs => h.set r bs | none => h) rs

/-- Lookup (`tree.Get` by key content) in the slice-heap embedding. -/
def refGetS (h : List (List Nat)) : List (Nat × Int) → List Nat → Option (Nat × Int)
  | [], _ => none
  | x :: xs, k =>
    if bytesCmp k (h.getD x.1 []) = Ordering.lt then none
    else if bytesCmp k (h.getD x.1 []) = Ordering.gt then refGetS h xs k
    else some x

/-- The `Has` method (by key content). -/
def Has (h : List (List Nat)) (t : List (Nat × Int)) (k : List Nat) : Bool :=
  (refGetS h t k).isSome

/-- The sequence of (key bytes, timestamp) pairs a traversal presents,
in tree order: what `ForEach` lets a callback observe. -/
def visitSeq (h : List (List Nat)) (t : List (Nat × Int)) : List (List Nat × Int) :=
  t.map fun x => (h.getD x.1 [], x.2)

end TTLSlice

namespace AppendLog

theorem treeGet_mem {t : List LogEntry} {k : Nat} {e : LogEntry}
    (h : treeGet t k = some e) : e ∈ t ∧ e.k = k := by
  induction t with
  | nil => simp [treeGet] at h
  | cons x xs ih =>
    simp only [treeGet] at h
    split at h
    · exact absurd h (by simp)
    · split at h
      · rcases ih h with ⟨h1, h2⟩; exact ⟨List.mem_cons_of_mem _ h1, h2⟩
      · cases h; exact ⟨List.mem_cons_self _ _, by omega⟩

theorem treeGet_of_mem {t : List LogEntry} {k : Nat} {e : LogEntry}
    (hs : sortedK t) (hm : e ∈ t) (hk : e.k = k) : treeGet t k = some e := by
  induction t with
  | nil => simp at hm
  | cons x xs ih =>
    rcases List.pairwise_cons.mp hs with ⟨hx, hxs⟩
    rcases List.mem_cons.mp hm with rfl | hm2
    · simp only [treeGet]
      rw [if_neg (by omega), if_neg (by omega)]
    · have hlt : x.k < e.k := hx e hm2
      simp only [treeGet]
      rw [if_neg (by omega), if_pos (by omega)]
      exact ih hxs hm2

theorem treeGet_none_of_forall {t : List LogEntry} {k : Nat}
    (h : ∀ x ∈ t, x.k ≠ k) : treeGet t k = none := by
  induction t with
  | nil => rfl
  | cons x xs ih =>
    have hx := h x (List.mem_cons_self _ _)
    simp only [treeGet]
    split
    · rfl
    · rw [if_pos (by omega)]
      exact ih fun y hy => h y (List.mem_cons_of_mem _ hy)

theorem forall_ne_of_treeGet_none {t : List LogEntry} {k : Nat}
    (hs : sortedK t) (h : treeGet t k = none) : ∀ x ∈ t, x.k ≠ k := by
  intro x hx hk
  rw [treeGet_of_mem hs hx hk] at h
  exact absurd h (by simp)

theorem mem_treeInsert {t : List LogEntry} {e y : LogEntry}
    (h : y ∈ treeInsert t e) : y = e ∨ y ∈ t := by
  induction t with
  | nil => simpa [treeInsert] using h
  | cons x xs ih =>
    simp only [treeInsert] at h
    split at h
    · rcases List.mem_cons.mp h with rfl | h2
      · exact Or.inl rfl
      · exact Or.inr h2
    · split at h
      · rcases List.mem_cons.mp h with rfl | h2
        · exact Or.inr (List.mem_cons_self _ _)
        · rcases ih h2 with h3 | h3
          · exact Or.inl h3
          · exact Or.inr (List.mem_cons_of_mem _ h3)
      · rcases List.mem_cons.mp h with rfl | h2
        · exact Or.inl rfl
        · exact Or.inr (List.mem_cons_of_mem _ h2)

theorem treeInsert_sorted {t : List LogEntry} {e : LogEntry}
    (hs : sortedK t) : sortedK (treeInsert t e) := by
  induction t with
  | nil => simp [treeInsert, sortedK]
  | cons x xs ih =>
    rcases List.pairwise_cons.mp hs with ⟨hx, hxs⟩
    simp only [treeInsert]
    split
    · refine List.pairwise_cons.mpr ⟨?_, hs⟩
      intro b hb
      rcases List.mem_cons.mp hb with rfl | hb2
      · omega
      · have := hx b hb2; omega
    · split
      · refine List.pairwise_cons.mpr ⟨?_, ih hxs⟩
        intro b hb
        rcases mem_treeInsert hb with rfl | hb2
        · omega
        · exact hx b hb2
      · refine List.pairwise_cons.mpr ⟨?_, hxs⟩
        intro b hb
        have := hx b hb
        omega

theorem treeInsert_perm {t : List LogEntry} {e : LogEntry}
    (h : ∀ x ∈ t, x.k ≠ e.k) : List.Perm (treeInsert t e) (e :: t) := by
  induction t with
  | nil => simp [treeInsert]
  | cons x xs ih =>
    have hx := h x (List.mem_cons_self _ _)
    simp only [treeInsert]
    split
    · exact List.Perm.refl _
    · rw [if_pos (by omega)]
      have hrec := ih fun y hy => h y (List.mem_cons_of_mem _ hy)
      exact List.Perm.trans (List.Perm.cons x hrec) (List.Perm.swap e x xs)

theorem treeInsert_append_of_lt {t : List LogEntry} {e : LogEntry}
    (h : ∀ x ∈ t, x.k < e.k) : treeInsert t e = t ++ [e] := by
  induction t with
  | nil => rfl
  | cons x xs ih =>
    have hx := h x (List.mem_cons_self _ _)
    simp only [treeInsert]
    rw [if_neg (by omega), if_pos hx, ih fun y hy => h y (List.mem_cons_of_mem _ hy)]
    rfl

theorem treeDelete_fst (t : List LogEntry) (k : Nat) :
    (treeDelete t k).1 = treeGet t k := by
  induction t with
  | nil => rfl
  | cons x xs ih =>
    simp only [treeDelete, treeGet]
    split
    · rfl
    · split
      · simpa using ih
      · rfl

theorem treeDelete_sublist (t : List LogEntry) (k : Nat) :
    (treeDelete t k).2.Sublist t := by
  induction t with
  | nil => simp [treeDelete]
  | cons x xs ih =>
    simp only [treeDelete]
    split
    · exact List.Sublist.refl _
    · split
      · simpa using List.Sublist.cons₂ x ih
      · simp

theorem treeDelete_length {t : List LogEntry} {k : Nat} {e : LogEntry}
    (h : (treeDelete t k).1 = some e) :
    (treeDelete t k).2.length + 1 = t.length := by
  induction t with
  | nil => simp [treeDelete] at h
  | cons x xs ih =>
    by_cases h1 : k < x.k
    · simp only [treeDelete, if_pos h1] at h
      exact absurd h (by simp)
    · by_cases h2 : x.k < k
      · simp only [treeDelete, if_neg h1, if_pos h2] at h ⊢
        have := ih h
        simp only [List.length_cons]
        omega
      · simp only [treeDelete, if_neg h1, if_neg h2]
        simp

theorem treeDelete_snd {t : List LogEntry} {k : Nat} (hs : sortedK t) :
    (treeDelete t k).2 = t.filter (fun e => e.k != k) := by
  induction t with
  | nil => rfl
  | cons x xs ih =>
    rcases List.pairwise_cons.mp hs with ⟨hx, hxs⟩
    simp only [treeDelete]
    split
    · rename_i h1
      rw [List.filter_cons_of_pos (by simp; omega),
          List.filter_eq_self.mpr fun y hy => by
            have := hx y hy; simp; omega]
    · split
      · rename_i h1 h2
        rw [List.filter_cons_of_pos (by simp; omega)]
        simpa using ih hxs
      · rename_i h1 h2
        rw [List.filter_cons_of_neg (by simp; omega),
            List.filter_eq_self.mpr fun y hy => by
              have := hx y hy; simp; omega]

theorem mem_treeDelete {t : List LogEntry} {k : Nat} {y : LogEntry}
    (hs : sortedK t) :
    y ∈ (treeDelete t k).2 ↔ y ∈ t ∧ y.k ≠ k := by
  rw [treeDelete_snd hs, List.mem_filter]
  simp

theorem Add_eq_of_none {s : BTreeIndexedStorage} {k : Nat} {v : GoBytes}
    (h : treeGet s.tree k = none) :
    Add s k v = { s with storage := s.storage ++ [v],
                         tree := treeInsert s.tree ⟨k, s.storage.length⟩ } := by
  unfold Add
  rw [h]

theorem Add_eq_of_some {s : BTreeIndexedStorage} {k : Nat} {v : GoBytes}
    {e : LogEntry} (h : treeGet s.tree k = some e) : Add s k v = s := by
  unfold Add
  rw [h]

theorem Delete_eq_of_some {s : BTreeIndexedStorage} {k : Nat} {e : LogEntry}
    (h : treeGet s.tree k = some e) :
    Delete s k = { s with tree := (treeDelete s.tree k).2,
                          storage := s.storage.set e.pos none,
                          tombstones := s.tombstones + 1 } := by
  simp [Delete, treeDelete_fst, h]

theorem sortedK_WF {s : BTreeIndexedStorage} (h : WF s) : sortedK s.tree := h.1

theorem Add_fresh_spec (s : BTreeIndexedStorage) (k : Nat) (v' : List Nat)
    (hWF : WF s) (hLive : SlotsLive s) (hfresh : treeGet s.tree k = none) :
    WF (Add s k (some v')) ∧ SlotsLive (Add s k (some v')) ∧
    Len (Add s k (some v')) = Len s + 1 ∧
    treeGet (Add s k (some v')).tree k = some ⟨k, s.storage.length⟩ ∧
    (∀ q, q ≠ k → treeGet (Add s k (some v')).tree q = treeGet s.tree q) ∧
    (Add s k (some v')).batchSize = s.batchSize := by
  obtain ⟨hsort, hpos, hnd⟩ := hWF
  have hne : ∀ x ∈ s.tree, x.k ≠ k := forall_ne_of_treeGet_none hsort hfresh
  have hperm : List.Perm (treeInsert s.tree ⟨k, s.storage.length⟩)
      (⟨k, s.storage.length⟩ :: s.tree) := treeInsert_perm hne
  have hsort2 : sortedK (treeInsert s.tree ⟨k, s.storage.length⟩) :=
    treeInsert_sorted hsort
  have hmem : ∀ y, y ∈ treeInsert s.tree ⟨k, s.storage.length⟩ ↔
      y = ⟨k, s.storage.length⟩ ∨ y ∈ s.tree := by
    intro y
    rw [hperm.mem_iff, List.mem_cons]
  rw [Add_eq_of_none hfresh]
  refine ⟨⟨hsort2, ?_, ?_⟩, ?_, ?_, ?_, ?_, rfl⟩
  · intro e he
    rcases (hmem e).mp he with rfl | he2
    · simp
    · have := hpos e he2
      simp only [List.length_append, List.length_cons, List.length_nil]
      omega
  · have : List.Perm ((treeInsert s.tree ⟨k, s.storage.length⟩).map LogEntry.pos)
        (s.storage.length :: s.tree.map LogEntry.pos) := hperm.map LogEntry.pos
    rw [this.nodup_iff]
    refine List.nodup_cons.mpr ⟨?_, hnd⟩
    intro hc
    rcases List.mem_map.mp hc with ⟨y, hy, hyp⟩
    have := hpos y hy
    omega
  · intro e he
    rcases (hmem e).mp he with rfl | he2
    · simp only
      rw [List.getD_eq_getElem?_getD, List.getElem?_concat_length]
      simp
    · have hlt := hpos e he2
      simp only
      rw [List.getD_append _ _ _ _ hlt]
      exact hLive e he2
  · simp only [Len]
    rw [hperm.length_eq]
    rfl
  · exact treeGet_of_mem hsort2 ((hmem _).mpr (Or.inl rfl)) rfl
  · intro q hq
    cases hg : treeGet s.tree q with
    | none =>
      refine treeGet_none_of_forall fun y hy => ?_
      rcases (hmem y).mp hy with rfl | hy2
      · simpa using fun h => hq h.symm
      · exact forall_ne_of_treeGet_none hsort hg y hy2
    | some e' =>
      obtain ⟨hmm, hkk⟩ := treeGet_mem hg
      exact treeGet_of_mem hsort2 ((hmem e').mpr (Or.inr hmm)) hkk

theorem Delete_present_spec (s : BTreeIndexedStorage) (k : Nat) (e : LogEntry)
    (hWF : WF s) (hLive : SlotsLive s) (h : treeGet s.tree k = some e) :
    WF (Delete s k) ∧ SlotsLive (Delete s k) ∧
    Len (Delete s k) + 1 = Len s ∧
    treeGet (Delete s k).tree k = none ∧
    (∀ q, q ≠ k → treeGet (Delete s k).tree q = treeGet s.tree q) ∧
    (Delete s k).batchSize = s.batchSize := by
  obtain ⟨hsort, hpos, hnd⟩ := hWF
  obtain ⟨hem, hek⟩ := treeGet_mem h
  have hsub : (treeDelete s.tree k).2.Sublist s.tree := treeDelete_sublist _ _
  have hsort2 : sortedK (treeDelete s.tree k).2 := List.Pairwise.sublist hsub hsort
  have hmem2 : ∀ y, y ∈ (treeDelete s.tree k).2 ↔ y ∈ s.tree ∧ y.k ≠ k :=
    fun y => mem_treeDelete hsort
  rw [Delete_eq_of_some h]
  refine ⟨⟨hsort2, ?_, ?_⟩, ?_, ?_, ?_, ?_, rfl⟩
  · intro y hy
    have := hpos y ((hmem2 y).mp hy).1
    simpa [List.length_set] using this
  · exact ((hsub.map LogEntry.pos).nodup hnd)
  · intro y hy
    obtain ⟨hyt, hyk⟩ := (hmem2 y).mp hy
    have hyne : y ≠ e := fun hc => hyk (hc ▸ hek)
    have hppos : y.pos ≠ e.pos := fun hc =>
      hyne (List.inj_on_of_nodup_map hnd hyt hem hc)
    simp only
    rw [List.getD_eq_getElem?_getD, List.getElem?_set_ne (Ne.symm hppos),
        ← List.getD_eq_getElem?_getD]
    exact hLive y hyt
  · have := treeDelete_length (t := s.tree) (k := k)
      (e := e) (by rw [treeDelete_fst, h])
    simpa [Len] using this
  · exact treeGet_none_of_forall fun y hy => ((hmem2 y).mp hy).2
  · intro q hq
    cases hg : treeGet s.tree q with
    | none =>
      refine treeGet_none_of_forall fun y hy => ?_
      exact forall_ne_of_treeGet_none hsort hg y ((hmem2 y).mp hy).1
    | some e' =>
      obtain ⟨hmm, hkk⟩ := treeGet_mem hg
      exact treeGet_of_mem hsort2 ((hmem2 e').mpr ⟨hmm, by omega⟩) hkk

theorem applyAdds_spec :
    ∀ (adds : List (Nat × List Nat)) (s : BTreeIndexedStorage),
    WF s → SlotsLive s → (adds.map Prod.fst).Nodup →
    (∀ p ∈ adds, treeGet s.tree p.1 = none) →
    WF (applyAdds s adds) ∧ SlotsLive (applyAdds s adds) ∧
    Len (applyAdds s adds) = Len s + adds.length ∧
    (∀ q, treeGet (applyAdds s adds).tree q = none ↔
      (q ∉ adds.map Prod.fst ∧ treeGet s.tree q = none)) ∧
    (applyAdds s adds).batchSize = s.batchSize := by
  intro adds
  induction adds with
  | nil =>
    intro s hWF hLive _ _
    exact ⟨hWF, hLive, by simp [applyAdds], by simp [applyAdds], rfl⟩
  | cons p rest ih =>
    intro s hWF hLive hnd hfresh
    obtain ⟨k, v⟩ := p
    have hf : treeGet s.tree k = none := hfresh (k, v) (List.mem_cons_self _ _)
    obtain ⟨hWF2, hLive2, hLen2, hGetK, hGetQ, hBS⟩ :=
      Add_fresh_spec s k v hWF hLive hf
    have hnd2 : (rest.map Prod.fst).Nodup := (List.nodup_cons.mp hnd).2
    have hknotin : k ∉ rest.map Prod.fst := by
      simpa using (List.nodup_cons.mp hnd).1
    have hfresh2 : ∀ p2 ∈ rest, treeGet (Add s k (some v)).tree p2.1 = none := by
      intro p2 hp2
      have hne : p2.1 ≠ k := fun hc =>
        hknotin (hc ▸ List.mem_map_of_mem Prod.fst hp2)
      rw [hGetQ p2.1 hne]
      exact hfresh p2 (List.mem_cons_of_mem _ hp2)
    obtain ⟨hWF3, hLive3, hLen3, hGet3, hBS3⟩ :=
      ih (Add s k (some v)) hWF2 hLive2 hnd2 hfresh2
    refine ⟨hWF3, hLive3, ?_, ?_, ?_⟩
    · simp only [applyAdds]
      rw [hLen3, hLen2]
      simp only [List.length_cons]
      omega
    · intro q
      simp only [applyAdds]
      rw [hGet3 q]
      by_cases hqk : q = k
      · subst hqk
        constructor
        · rintro ⟨-, hnone⟩
          rw [hGetK] at hnone
          exact absurd hnone (by simp)
        · rintro ⟨hni, -⟩
          exact absurd (List.mem_map_of_mem Prod.fst (List.mem_cons_self _ _)) hni
      · rw [hGetQ q hqk]
        simp only [List.map_cons, List.mem_cons]
        constructor
        · rintro ⟨hni, hnone⟩
          exact ⟨by rintro (hc | hc); exact hqk hc; exact hni hc, hnone⟩
        · rintro ⟨hni, hnone⟩
          exact ⟨fun hc => hni (Or.inr hc), hnone⟩
    · simp only [applyAdds]
      rw [hBS3, hBS]

theorem applyDeletes_spec :
    ∀ (dels : List Nat) (s : BTreeIndexedStorage),
    WF s → SlotsLive s → dels.Nodup →
    (∀ d ∈ dels, treeGet s.tree d ≠ none) →
    WF (applyDeletes s dels) ∧ SlotsLive (applyDeletes s dels) ∧
    Len (applyDeletes s dels) + dels.length = Len s ∧
    (∀ q, treeGet (applyDeletes s dels).tree q = none ↔
      (q ∈ dels ∨ treeGet s.tree q = none)) ∧
    (applyDeletes s dels).batchSize = s.batchSize := by
  intro dels
  induction dels with
  | nil =>
    intro s hWF hLive _ _
    exact ⟨hWF, hLive, by simp [applyDeletes], by simp [applyDeletes], rfl⟩
  | cons d rest ih =>
    intro s hWF hLive hnd hpres
    have hd : treeGet s.tree d ≠ none := hpres d (List.mem_cons_self _ _)
    obtain ⟨e, he⟩ : ∃ e, treeGet s.tree d = some e := by
      cases hg : treeGet s.tree d with
      | none => exact absurd hg hd
      | some e => exact ⟨e, rfl⟩
    obtain ⟨hWF2, hLive2, hLen2, hGdel, hGq, hBS2⟩ :=
      Delete_present_spec s d e hWF hLive he
    have hnd2 : rest.Nodup := (List.nodup_cons.mp hnd).2
    have hdnotin : d ∉ rest := (List.nodup_cons.mp hnd).1
    have hpres2 : ∀ d2 ∈ rest, treeGet (Delete s d).tree d2 ≠ none := by
      intro d2 hd2
      have hne : d2 ≠ d := fun hc => hdnotin (hc ▸ hd2)
      rw [hGq d2 hne]
      exact hpres d2 (List.mem_cons_of_mem _ hd2)
    obtain ⟨hWF3, hLive3, hLen3, hGet3, hBS3⟩ :=
      ih (Delete s d) hWF2 hLive2 hnd2 hpres2
    refine ⟨hWF3, hLive3, ?_, ?_, ?_⟩
    · simp only [applyDeletes]
      simp only [List.length_cons]
      omega
    · intro q
      simp only [applyDeletes]
      rw [hGet3 q]
      by_cases hqd : q = d
      · subst hqd
        simp [hGdel]
      · rw [hGq q hqd]
        simp only [List.mem_cons]
        constructor
        · rintro (hc | hc)
          · exact Or.inl (Or.inr hc)
          · exact Or.inr hc
        · rintro ((hc | hc) | hc)
          · exact absurd hc hqd
          · exact Or.inl hc
          · exact Or.inr hc
    · simp only [applyDeletes]
      rw [hBS3, hBS2]

theorem NewStore_spec (degree capacity : Int) (threshold : Rat) (batchSize : Int) :
    WF (NewBTreeIndexedStorage degree capacity threshold batchSize) ∧
    SlotsLive (NewBTreeIndexedStorage degree capacity threshold batchSize) ∧
    Len (NewBTreeIndexedStorage degree capacity threshold batchSize) = 0 ∧
    (∀ q, treeGet (NewBTreeIndexedStorage degree capacity threshold batchSize).tree q = none) ∧
    (NewBTreeIndexedStorage degree capacity threshold batchSize).batchSize = batchSize := by
  refine ⟨⟨?_, ?_, ?_⟩, ?_, rfl, fun q => rfl, rfl⟩ <;>
    simp [NewBTreeIndexedStorage, SlotsLive]

theorem compact_def (s : BTreeIndexedStorage) :
    CompactIncremental s =
      { s with storage := (compactScan s.storage s.batchSize s.tree [] [] 0).1,
               tree := (compactScan s.storage s.batchSize s.tree [] [] 0).2.1,
               tombstones := 0 } := by
  unfold CompactIncremental
  exact ite_self _

theorem compactScan_full (storage : List GoBytes) (B : Int) :
    ∀ (es : List LogEntry) (ns : List GoBytes) (nt : List LogEntry) (c : Int),
    (B ≤ 0 ∨ c + es.length ≤ B) →
    compactScan storage B es ns nt c =
      ((rebuildFrom storage es ns nt).1, (rebuildFrom storage es ns nt).2,
       c + es.length) := by
  intro es
  induction es with
  | nil =>
    intro ns nt c h
    simp [compactScan, rebuildFrom]
  | cons e rest ih =>
    intro ns nt c h
    by_cases hstop : 0 < B ∧ B ≤ c + 1
    · have hrest : rest = [] := by
        rcases h with h | h
        · omega
        · simp only [List.length_cons] at h
          refine List.eq_nil_of_length_eq_zero ?_
          omega
      subst hrest
      by_cases hv : storage.getD e.pos none = none
      · simp [compactScan, rebuildFrom, hv, hstop]
      · simp [compactScan, rebuildFrom, hv, hstop]
    · have hcond : B ≤ 0 ∨ (c + 1) + (rest.length : Int) ≤ B := by
        rcases h with h | h
        · exact Or.inl h
        · simp only [List.length_cons] at h
          push_cast at h ⊢
          omega
      by_cases hv : storage.getD e.pos none = none
      · simp only [compactScan, rebuildFrom, if_pos hv]
        rw [if_neg hstop, ih ns nt (c + 1) hcond]
        simp only [List.length_cons, Prod.mk.injEq]
        refine ⟨trivial, trivial, ?_⟩
        push_cast
        omega
      · simp only [compactScan, rebuildFrom, if_neg hv]
        rw [if_neg hstop, ih _ _ (c + 1) hcond]
        simp only [List.length_cons, Prod.mk.injEq]
        refine ⟨trivial, trivial, ?_⟩
        push_cast
        omega

theorem compactScan_partial (storage : List GoBytes) (B : Int) :
    ∀ (es : List LogEntry) (ns : List GoBytes) (nt : List LogEntry) (c : Int),
    0 < B → c < B → (B - c).toNat ≤ es.length →
    compactScan storage B es ns nt c =
      ((rebuildFrom storage (es.take (B - c).toNat) ns nt).1,
       (rebuildFrom storage (es.take (B - c).toNat) ns nt).2, B) := by
  intro es
  induction es with
  | nil =>
    intro ns nt c hB hc hle
    simp only [List.length_nil, Nat.le_zero] at hle
    omega
  | cons e rest ih =>
    intro ns nt c hB hc hle
    by_cases hstop : 0 < B ∧ B ≤ c + 1
    · have hBc : B = c + 1 := by omega
      have htake : (B - c).toNat = 1 := by omega
      rw [htake]
      by_cases hv : storage.getD e.pos none = none
      · simp only [compactScan, List.take_succ_cons, List.take_zero, rebuildFrom,
          if_pos hv]
        rw [if_pos hstop, hBc]
      · simp only [compactScan, List.take_succ_cons, List.take_zero, rebuildFrom,
          if_neg hv]
        rw [if_pos hstop, hBc]
    · have hc2 : c + 1 < B := by omega
      have hle2 : (B - (c + 1)).toNat ≤ rest.length := by
        simp only [List.length_cons] at hle
        omega
      have htake : (B - c).toNat = (B - (c + 1)).toNat + 1 := by omega
      rw [htake]
      by_cases hv : storage.getD e.pos none = none
      · simp only [compactScan, List.take_succ_cons, rebuildFrom, if_pos hv]
        rw [if_neg hstop]
        exact ih ns nt (c + 1) hB hc2 hle2
      · simp only [compactScan, List.take_succ_cons, rebuildFrom, if_neg hv]
        rw [if_neg hstop]
        exact ih _ _ (c + 1) hB hc2 hle2

theorem renumber_length (start : Nat) (l : List LogEntry) :
    (renumber start l).length = l.length := by
  induction l generalizing start with
  | nil => rfl
  | cons e rest ih => simp [renumber, ih]

theorem renumber_map_k (start : Nat) (l : List LogEntry) :
    (renumber start l).map LogEntry.k = l.map LogEntry.k := by
  induction l generalizing start with
  | nil => rfl
  | cons e rest ih => simp [renumber, ih]

theorem rebuildFrom_closed (storage : List GoBytes) :
    ∀ (es : List LogEntry) (ns : List GoBytes) (nt : List LogEntry),
    es.Pairwise (fun a b => a.k < b.k) →
    nt.Pairwise (fun a b => a.k < b.k) →
    (∀ x ∈ nt, ∀ e ∈ es, x.k < e.k) →
    rebuildFrom storage es ns nt =
      (ns ++ (es.filter (liveSlot storage)).map (fun e => storage.getD e.pos none),
       nt ++ renumber ns.length (es.filter (liveSlot storage))) := by
  intro es
  induction es with
  | nil =>
    intro ns nt _ _ _
    simp [rebuildFrom, renumber]
  | cons e rest ih =>
    intro ns nt hes hnt hcross
    rcases List.pairwise_cons.mp hes with ⟨hehd, herest⟩
    by_cases hv : storage.getD e.pos none = none
    · have hlive : liveSlot storage e = false := by
        unfold liveSlot
        rw [hv]
        rfl
      simp only [rebuildFrom, hv, if_pos rfl]
      rw [List.filter_cons_of_neg (by simp [hlive])]
      exact ih ns nt herest hnt fun x hx r hr =>
        hcross x hx r (List.mem_cons_of_mem _ hr)
    · have hlive : liveSlot storage e = true := by
        unfold liveSlot
        exact bne_iff_ne.mpr hv
      simp only [rebuildFrom, if_neg hv]
      have hins : treeInsert nt ⟨e.k, ns.length⟩ = nt ++ [⟨e.k, ns.length⟩] :=
        treeInsert_append_of_lt fun x hx =>
          hcross x hx e (List.mem_cons_self _ _)
      rw [hins, List.filter_cons_of_pos (by simp [hlive])]
      have hnt2 : (nt ++ [(⟨e.k, ns.length⟩ : LogEntry)]).Pairwise
          (fun a b => a.k < b.k) := by
        rw [List.pairwise_append]
        exact ⟨hnt, List.pairwise_singleton _ _,
          fun a ha b hb => by
            rcases List.mem_singleton.mp hb with rfl
            exact hcross a ha e (List.mem_cons_self _ _)⟩
      have hcross2 : ∀ x ∈ nt ++ [(⟨e.k, ns.length⟩ : LogEntry)],
          ∀ r ∈ rest, x.k < r.k := by
        intro x hx r hr
        rcases List.mem_append.mp hx with hx2 | hx2
        · exact hcross x hx2 r (List.mem_cons_of_mem _ hr)
        · rcases List.mem_singleton.mp hx2 with rfl
          exact hehd r hr
      rw [ih (ns ++ [storage.getD e.pos none]) _ herest hnt2 hcross2]
      simp only [List.map_cons, List.length_append, List.length_cons,
        List.length_nil, renumber, List.append_assoc, List.cons_append,
        List.nil_append]

theorem length_filter_of_one_false {α : Type} (p : α → Bool) :
    ∀ (t : List α) (e : α), e ∈ t → t.Nodup → p e = false →
    (∀ x ∈ t, x ≠ e → p x = true) →
    (t.filter p).length + 1 = t.length := by
  intro t
  induction t with
  | nil => intro e he; simp at he
  | cons x xs ih =>
    intro e he hnd hpe hrest
    rcases List.nodup_cons.mp hnd with ⟨hxnot, hnd2⟩
    rcases List.mem_cons.mp he with rfl | he2
    · rw [List.filter_cons_of_neg (by simp [hpe])]
      rw [List.filter_eq_self.mpr fun y hy =>
        hrest y (List.mem_cons_of_mem _ hy) fun hc => hxnot (hc ▸ hy)]
      simp
    · have hxe : x ≠ e := fun hc => hxnot (hc ▸ he2)
      rw [List.filter_cons_of_pos (hrest x (List.mem_cons_self _ _) hxe)]
      have := ih e he2 hnd2 hpe fun y hy hne =>
        hrest y (List.mem_cons_of_mem _ hy) hne
      simp only [List.length_cons]
      omega

/-- C1: for a store with `batchSize > 0` holding more index entries than
`batchSize`, `CompactIncremental` replaces the whole store (backing
sequence and index) with the partial output built from only the first
`batchSize` entries in ascending key order, resets the tombstone counter
to zero, and every unscanned entry's key is gone from the new index. -/
theorem claim_C1 (s : BTreeIndexedStorage) (hWF : WF s)
    (hb : 0 < s.batchSize) (hlen : s.batchSize < (s.tree.length : Int)) :
    CompactIncremental s =
      { s with
        storage := (rebuildFrom s.storage (s.tree.take s.batchSize.toNat) [] []).1,
        tree := (rebuildFrom s.storage (s.tree.take s.batchSize.toNat) [] []).2,
        tombstones := 0 } ∧
    ∀ e ∈ s.tree.drop s.batchSize.toNat,
      treeGet (CompactIncremental s).tree e.k = none := by
  have hle : (s.batchSize - 0).toNat ≤ s.tree.length := by omega
  have hscan := compactScan_partial s.storage s.batchSize s.tree [] [] 0 hb
    (by omega) hle
  rw [sub_zero] at hscan
  obtain ⟨hsort, -, -⟩ := hWF
  constructor
  · rw [compact_def, hscan]
  · intro e he
    have htree : (CompactIncremental s).tree =
        (rebuildFrom s.storage (s.tree.take s.batchSize.toNat) [] []).2 := by
      rw [compact_def, hscan]
    rw [htree]
    have hsorttake : (s.tree.take s.batchSize.toNat).Pairwise
        (fun a b => a.k < b.k) :=
      List.Pairwise.sublist (List.take_sublist _ _) hsort
    rw [rebuildFrom_closed s.storage _ [] [] hsorttake List.Pairwise.nil
      (by simp)]
    refine treeGet_none_of_forall ?_
    intro x hx
    simp only [List.nil_append, List.length_nil] at hx
    have hxk : x.k ∈ (renumber 0
        ((s.tree.take s.batchSize.toNat).filter (liveSlot s.storage))).map
        LogEntry.k := List.mem_map_of_mem _ hx
    rw [renumber_map_k] at hxk
    obtain ⟨y, hy, hyk⟩ := List.mem_map.mp hxk
    have hyt : y ∈ s.tree.take s.batchSize.toNat := List.mem_of_mem_filter hy
    have hcross : ∀ a ∈ s.tree.take s.batchSize.toNat,
        ∀ b ∈ s.tree.drop s.batchSize.toNat, a.k < b.k := by
      have hpw : (s.tree.take s.batchSize.toNat ++
          s.tree.drop s.batchSize.toNat).Pairwise (fun a b => a.k < b.k) := by
        rw [List.take_append_drop]
        exact hsort
      exact (List.pairwise_append.mp hpw).2.2
    have := hcross y hyt e he
    omega

/-- C1 witness: a concrete store with two live entries and `batchSize = 1`;
compaction keeps only the first entry and drops the second. -/
theorem claim_C1_witness :
    WF (applyAdds (NewBTreeIndexedStorage 2 0 1 1) [(1, [5]), (2, [7])]) ∧
    (CompactIncremental (applyAdds (NewBTreeIndexedStorage 2 0 1 1) [(1, [5]), (2, [7])]) =
      { applyAdds (NewBTreeIndexedStorage 2 0 1 1) [(1, [5]), (2, [7])] with
        storage := (rebuildFrom
          (applyAdds (NewBTreeIndexedStorage 2 0 1 1) [(1, [5]), (2, [7])]).storage
          ((applyAdds (NewBTreeIndexedStorage 2 0 1 1) [(1, [5]), (2, [7])]).tree.take
            (applyAdds (NewBTreeIndexedStorage 2 0 1 1) [(1, [5]), (2, [7])]).batchSize.toNat)
          [] []).1,
        tree := (rebuildFrom
          (applyAdds (NewBTreeIndexedStorage 2 0 1 1) [(1, [5]), (2, [7])]).storage
          ((applyAdds (NewBTreeIndexedStorage 2 0 1 1) [(1, [5]), (2, [7])]).tree.take
            (applyAdds (NewBTreeIndexedStorage 2 0 1 1) [(1, [5]), (2, [7])]).batchSize.toNat)
          [] []).2,
        tombstones := 0 } ∧
      ∀ e ∈ (applyAdds (NewBTreeIndexedStorage 2 0 1 1) [(1, [5]), (2, [7])]).tree.drop
          (applyAdds (NewBTreeIndexedStorage 2 0 1 1) [(1, [5]), (2, [7])]).batchSize.toNat,
        treeGet (CompactIncremental
          (applyAdds (NewBTreeIndexedStorage 2 0 1 1) [(1, [5]), (2, [7])])).tree e.k = none) :=
  ⟨by decide, claim_C1 _ (by decide) (by decide) (by decide)⟩

/-- C2 counterexample: in a store with `batchSize = 1`, inserting the
three keys 1, 2, 3 and deleting key 1 leaves `Len = 2`, but running
`CompactIncremental` afterwards does not preserve `Len = 2` (it discards
the unscanned live entry), refuting the claim as stated for every store. -/
theorem claim_C2_counterexample :
    Len (applyDeletes (applyAdds (NewBTreeIndexedStorage 2 0 1 1)
      [(1, [10]), (2, [20]), (3, [30])]) [1]) = 2 ∧
    Len (CompactIncremental (applyDeletes (applyAdds (NewBTreeIndexedStorage 2 0 1 1)
      [(1, [10]), (2, [20]), (3, [30])]) [1])) ≠ 2 := by
  decide

/-- C2 amended: the tombstone/compaction round-trip holds provided the
compaction scan covers the whole remaining index, i.e. the store's
`batchSize` is non-positive (unbounded) or at least `N - M`: inserting
`N` distinct keys (non-nil values), deleting `M < N` of them leaves
`Len = N - M`; compaction then preserves `Len = N - M` and every deleted
key reads back not-found. -/
theorem claim_C2_amended (adds : List (Nat × List Nat)) (dels : List Nat)
    (degree capacity : Int) (threshold : Rat) (batchSize : Int)
    (hndA : (adds.map Prod.fst).Nodup) (hndD : dels.Nodup)
    (hsub : ∀ d ∈ dels, d ∈ adds.map Prod.fst)
    (hM : dels.length < adds.length)
    (hbs : batchSize ≤ 0 ∨ (adds.length : Int) - (dels.length : Int) ≤ batchSize) :
    Len (applyDeletes (applyAdds
        (NewBTreeIndexedStorage degree capacity threshold batchSize) adds) dels) =
      adds.length - dels.length ∧
    Len (CompactIncremental (applyDeletes (applyAdds
        (NewBTreeIndexedStorage degree capacity threshold batchSize) adds) dels)) =
      adds.length - dels.length ∧
    ∀ d ∈ dels,
      (Get (CompactIncremental (applyDeletes (applyAdds
        (NewBTreeIndexedStorage degree capacity threshold batchSize) adds) dels)) d).2
        = false := by
  obtain ⟨hWF0, hLive0, hLen0, hGet0, hBS0⟩ :=
    NewStore_spec degree capacity threshold batchSize
  obtain ⟨hWF1, hLive1, hLen1, hGet1, hBS1⟩ :=
    applyAdds_spec adds _ hWF0 hLive0 hndA fun p _ => hGet0 p.1
  have hpres : ∀ d ∈ dels,
      treeGet (applyAdds (NewBTreeIndexedStorage degree capacity threshold batchSize)
        adds).tree d ≠ none := by
    intro d hd hc
    exact ((hGet1 d).mp hc).1 (hsub d hd)
  obtain ⟨hWF2, hLive2, hLen2, hGet2, hBS2⟩ :=
    applyDeletes_spec dels _ hWF1 hLive1 hndD hpres
  set s1 := applyDeletes (applyAdds
    (NewBTreeIndexedStorage degree capacity threshold batchSize) adds) dels with hs1
  rw [hLen1, hLen0] at hLen2
  have hLenS1 : Len s1 = adds.length - dels.length := by omega
  have htlen : s1.tree.length = adds.length - dels.length := hLenS1
  have hbs1 : s1.batchSize = batchSize := by rw [hBS2, hBS1, hBS0]
  have hfull : s1.batchSize ≤ 0 ∨ (0 : Int) + s1.tree.length ≤ s1.batchSize := by
    rw [hbs1]
    rcases hbs with h | h
    · exact Or.inl h
    · right
      rw [htlen]
      omega
  have hscan := compactScan_full s1.storage s1.batchSize s1.tree [] [] 0 hfull
  obtain ⟨hsort1, -, -⟩ := hWF2
  have hclosed := rebuildFrom_closed s1.storage s1.tree [] [] hsort1
    List.Pairwise.nil (by simp)
  have hfiltall : s1.tree.filter (liveSlot s1.storage) = s1.tree :=
    List.filter_eq_self.mpr fun e he => by
      unfold liveSlot
      exact bne_iff_ne.mpr (hLive2 e he)
  have htree2 : (CompactIncremental s1).tree = renumber 0 s1.tree := by
    rw [compact_def]
    show (compactScan s1.storage s1.batchSize s1.tree [] [] 0).2.1 = _
    rw [hscan]
    show (rebuildFrom s1.storage s1.tree [] []).2 = _
    rw [hclosed]
    show [] ++ renumber (List.length ([] : List GoBytes))
      (s1.tree.filter (liveSlot s1.storage)) = _
    rw [hfiltall]
    simp
  refine ⟨hLenS1, ?_, ?_⟩
  · show (CompactIncremental s1).tree.length = _
    rw [htree2, renumber_length, htlen]
  · intro d hd
    have hnone1 : treeGet s1.tree d = none := (hGet2 d).mpr (Or.inl hd)
    have hforall := forall_ne_of_treeGet_none hsort1 hnone1
    have hnone2 : treeGet (CompactIncremental s1).tree d = none := by
      rw [htree2]
      refine treeGet_none_of_forall ?_
      intro x hx
      have hxk : x.k ∈ (renumber 0 s1.tree).map LogEntry.k :=
        List.mem_map_of_mem _ hx
      rw [renumber_map_k] at hxk
      obtain ⟨y, hy, hyk⟩ := List.mem_map.mp hxk
      rw [← hyk]
      exact hforall y hy
    simp [Get, hnone2]

/-- C2 amended witness: three inserts, one delete, unbounded batch size;
the round-trip holds. -/
theorem claim_C2_amended_witness :
    Len (applyDeletes (applyAdds (NewBTreeIndexedStorage 2 0 1 0)
      [(1, [10]), (2, [20]), (3, [30])]) [2]) = 2 ∧
    Len (CompactIncremental (applyDeletes (applyAdds (NewBTreeIndexedStorage 2 0 1 0)
      [(1, [10]), (2, [20]), (3, [30])]) [2])) = 2 ∧
    ∀ d ∈ [2],
      (Get (CompactIncremental (applyDeletes (applyAdds (NewBTreeIndexedStorage 2 0 1 0)
        [(1, [10]), (2, [20]), (3, [30])]) [2])) d).2 = false :=
  claim_C2_amended [(1, [10]), (2, [20]), (3, [30])] [2] 2 0 1 0
    (by decide) (by decide) (by decide) (by decide) (by decide)

/-- C7: adding an already-present key is a no-op (first-writer-wins): the
whole store is unchanged, so the backing sequence, index, `Len` and `Get`
are unchanged; concretely, Add(k1,"foo") then Add(k1,"bar") leaves
Get(k1) == "foo". -/
theorem claim_C7 (s : BTreeIndexedStorage) (k : Nat) (v : GoBytes)
    (e : LogEntry) (h : treeGet s.tree k = some e) :
    Add s k v = s ∧ Get (Add s k v) k = Get s k ∧
    Get (Add (Add (NewBTreeIndexedStorage 32 0 (3 / 10) 0) 1
        (some [102, 111, 111])) 1 (some [98, 97, 114])) 1 =
      (some [102, 111, 111], true) :=
  ⟨Add_eq_of_some h, by rw [Add_eq_of_some h], by decide⟩

/-- C7 witness: a concrete store where key 1 is present. -/
theorem claim_C7_witness :
    treeGet (Add (NewBTreeIndexedStorage 2 0 1 0) 1 (some [3])).tree 1 =
      some ⟨1, 0⟩ ∧
    Add (Add (NewBTreeIndexedStorage 2 0 1 0) 1 (some [3])) 1 (some [4]) =
      Add (NewBTreeIndexedStorage 2 0 1 0) 1 (some [3]) ∧
    Get (Add (Add (NewBTreeIndexedStorage 2 0 1 0) 1 (some [3])) 1 (some [4])) 1 =
      Get (Add (NewBTreeIndexedStorage 2 0 1 0) 1 (some [3])) 1 ∧
    Get (Add (Add (NewBTreeIndexedStorage 32 0 (3 / 10) 0) 1
        (some [102, 111, 111])) 1 (some [98, 97, 114])) 1 =
      (some [102, 111, 111], true) :=
  ⟨by decide, claim_C7 _ 1 (some [4]) ⟨1, 0⟩ (by decide)⟩

/-- C10: a key added with a nil value and never deleted reads back as
(nil, found=true); a full compaction (batchSize 0 or covering the whole
index) then removes it like a tombstone: afterwards the key is not found
and `Len` has dropped by one. -/
theorem claim_C10 (s : BTreeIndexedStorage) (k : Nat) (e : LogEntry)
    (hWF : WF s) (hget : treeGet s.tree k = some e)
    (hnil : s.storage.getD e.pos none = none)
    (hothers : ∀ y ∈ s.tree, y.k ≠ k → s.storage.getD y.pos none ≠ none)
    (hbs : s.batchSize = 0 ∨ (s.tree.length : Int) ≤ s.batchSize) :
    Get s k = (none, true) ∧
    (Get (CompactIncremental s) k).2 = false ∧
    Len (CompactIncremental s) + 1 = Len s := by
  obtain ⟨hsort, -, -⟩ := hWF
  have hfull : s.batchSize ≤ 0 ∨ (0 : Int) + s.tree.length ≤ s.batchSize := by
    rcases hbs with h | h
    · exact Or.inl (le_of_eq h)
    · right; omega
  have hscan := compactScan_full s.storage s.batchSize s.tree [] [] 0 hfull
  have hclosed := rebuildFrom_closed s.storage s.tree [] [] hsort
    List.Pairwise.nil (by simp)
  have htree2 : (CompactIncremental s).tree =
      renumber 0 (s.tree.filter (liveSlot s.storage)) := by
    rw [compact_def]
    show (compactScan s.storage s.batchSize s.tree [] [] 0).2.1 = _
    rw [hscan]
    show (rebuildFrom s.storage s.tree [] []).2 = _
    rw [hclosed]
    simp
  obtain ⟨hem, hek⟩ := treeGet_mem hget
  have hnd : s.tree.Nodup := by
    refine List.Pairwise.imp ?_ hsort
    intro a b hlt hc
    rw [hc] at hlt
    omega
  have huniq : ∀ y ∈ s.tree, y.k = k → y = e := by
    intro y hy hyk
    have h2 := treeGet_of_mem hsort hy hyk
    rw [hget] at h2
    exact (Option.some.inj h2).symm
  have hflen : (s.tree.filter (liveSlot s.storage)).length + 1 = s.tree.length := by
    refine length_filter_of_one_false _ s.tree e hem hnd ?_ ?_
    · unfold liveSlot
      rw [hnil]
      rfl
    · intro y hy hne
      unfold liveSlot
      refine bne_iff_ne.mpr (hothers y hy fun hc => hne (huniq y hy hc))
  have hnil2 := hnil
  rw [List.getD_eq_getElem?_getD] at hnil2
  refine ⟨by simp [Get, hget, hnil2], ?_, ?_⟩
  · have hnone2 : treeGet (CompactIncremental s).tree k = none := by
      rw [htree2]
      refine treeGet_none_of_forall ?_
      intro x hx
      have hxk : x.k ∈ (renumber 0 (s.tree.filter (liveSlot s.storage))).map
          LogEntry.k := List.mem_map_of_mem _ hx
      rw [renumber_map_k] at hxk
      obtain ⟨y, hy, hyk⟩ := List.mem_map.mp hxk
      obtain ⟨hyt, hylive⟩ := List.mem_filter.mp hy
      rw [← hyk]
      intro hc
      have hye : y = e := huniq y hyt hc
      rw [hye] at hylive
      unfold liveSlot at hylive
      rw [hnil] at hylive
      exact absurd hylive (by decide)
    simp [Get, hnone2]
  · show (CompactIncremental s).tree.length + 1 = _
    rw [htree2, renumber_length]
    exact hflen

/-- C10 witness: key 2 added with a nil value next to a live key 1;
before compaction it reads (nil, true), after a full compaction it is
gone and the length dropped from 2 to 1. -/
theorem claim_C10_witness :
    WF (Add (Add (NewBTreeIndexedStorage 2 0 1 0) 1 (some [9])) 2 none) ∧
    Get (Add (Add (NewBTreeIndexedStorage 2 0 1 0) 1 (some [9])) 2 none) 2 =
      (none, true) ∧
    (Get (CompactIncremental
      (Add (Add (NewBTreeIndexedStorage 2 0 1 0) 1 (some [9])) 2 none)) 2).2 = false ∧
    Len (CompactIncremental
      (Add (Add (NewBTreeIndexedStorage 2 0 1 0) 1 (some [9])) 2 none)) + 1 =
      Len (Add (Add (NewBTreeIndexedStorage 2 0 1 0) 1 (some [9])) 2 none) :=
  ⟨by decide, claim_C10 _ 2 ⟨2, 1⟩ (by decide) (by decide) (by decide)
    (by decide) (by decide)⟩

end AppendLog

theorem bytesCmp_self (a : List Nat) : bytesCmp a a = Ordering.eq := by
  induction a with
  | nil => rfl
  | cons x as ih => simp [bytesCmp, ih]

theorem bytesCmp_eq_iff : ∀ {a b : List Nat}, bytesCmp a b = Ordering.eq ↔ a = b := by
  intro a
  induction a with
  | nil =>
    intro b
    cases b with
    | nil => simp [bytesCmp]
    | cons y bs => simp [bytesCmp]
  | cons x as ih =>
    intro b
    cases b with
    | nil => simp [bytesCmp]
    | cons y bs =>
      simp only [bytesCmp]
      split_ifs with h1 h2
      · constructor
        · intro hc; exact absurd hc (by decide)
        · intro hc; injection hc with h3 h4; omega
      · constructor
        · intro hc; exact absurd hc (by decide)
        · intro hc; injection hc with h3 h4; omega
      · have hxy : x = y := by omega
        subst hxy
        rw [ih]
        simp

theorem bytesCmp_swap : ∀ (a b : List Nat), bytesCmp b a = (bytesCmp a b).swap := by
  intro a
  induction a with
  | nil =>
    intro b
    cases b <;> rfl
  | cons x as ih =>
    intro b
    cases b with
    | nil => rfl
    | cons y bs =>
      simp only [bytesCmp]
      split_ifs with h1 h2 h3
      · exact absurd h2 (by omega)
      · rfl
      · rfl
      · exact ih bs

theorem bytesCmp_gt_iff {a b : List Nat} :
    bytesCmp a b = Ordering.gt ↔ bytesCmp b a = Ordering.lt := by
  rw [bytesCmp_swap a b]
  cases bytesCmp a b <;> simp [Ordering.swap]

theorem bytesCmp_lt_trans :
    ∀ {a b c : List Nat}, bytesCmp a b = Ordering.lt →
    bytesCmp b c = Ordering.lt → bytesCmp a c = Ordering.lt := by
  intro a
  induction a with
  | nil =>
    intro b c h1 h2
    cases b with
    | nil => exact absurd h1 (by simp [bytesCmp])
    | cons y bs =>
      cases c with
      | nil => exact absurd h2 (by simp [bytesCmp])
      | cons z cs => rfl
  | cons x as ih =>
    intro b c h1 h2
    cases b with
    | nil => exact absurd h1 (by simp [bytesCmp])
    | cons y bs =>
      cases c with
      | nil => exact absurd h2 (by simp [bytesCmp])
      | cons z cs =>
        simp only [bytesCmp] at h1 h2 ⊢
        split_ifs at h1 with ha hb
        · split_ifs at h2 with hc hd
          · have hxz : x < z := by omega
            rw [if_pos hxz]
          · have hxz : x < z := by omega
            rw [if_pos hxz]
        · split_ifs at h2 with hc hd
          · have hxz : x < z := by omega
            rw [if_pos hxz]
          · have hxz : ¬ x < z := by omega
            have hzx : ¬ z < x := by omega
            rw [if_neg hxz, if_neg hzx]
            exact ih h1 h2

theorem bytesCmp_lt_ne {a b : List Nat} (h : bytesCmp a b = Ordering.lt) :
    a ≠ b := by
  intro hc
  subst hc
  rw [bytesCmp_self] at h
  exact absurd h (by decide)

namespace TTL

/-- Shorthand for the eligibility test of the TTL scans. -/
def elig (cutoff : Int) (x : TItem) : Bool :=
  decide (x.timestampUnixSeconds ≤ cutoff)

theorem itemGet_mem {t : List TItem} {k : List Nat} {e : TItem}
    (h : itemGet t k = some e) : e ∈ t ∧ e.keyBytes = k := by
  induction t with
  | nil => simp [itemGet] at h
  | cons x xs ih =>
    simp only [itemGet] at h
    split_ifs at h with h1 h2
    · rcases ih h with ⟨hm, hk⟩
      exact ⟨List.mem_cons_of_mem _ hm, hk⟩
    · have hcmp : bytesCmp k x.keyBytes = Ordering.eq := by
        cases hc : bytesCmp k x.keyBytes
        · exact absurd hc h1
        · rfl
        · exact absurd hc h2
      cases h
      exact ⟨List.mem_cons_self _ _, (bytesCmp_eq_iff.mp hcmp).symm⟩

theorem itemGet_of_mem {t : List TItem} {k : List Nat} {e : TItem}
    (hs : sortedItems t) (hm : e ∈ t) (hk : e.keyBytes = k) :
    itemGet t k = some e := by
  induction t with
  | nil => simp at hm
  | cons x xs ih =>
    rcases List.pairwise_cons.mp hs with ⟨hx, hxs⟩
    rcases List.mem_cons.mp hm with rfl | hm2
    · have hcmp : bytesCmp k e.keyBytes = Ordering.eq := by
        rw [← hk]
        exact bytesCmp_self _
      simp only [itemGet]
      rw [if_neg (by rw [hcmp]; decide), if_neg (by rw [hcmp]; decide)]
    · have hlt : bytesCmp x.keyBytes e.keyBytes = Ordering.lt := hx e hm2
      have hgt : bytesCmp k x.keyBytes = Ordering.gt := by
        rw [← hk]
        exact bytesCmp_gt_iff.mpr hlt
      simp only [itemGet]
      rw [if_neg (by rw [hgt]; decide), if_pos hgt]
      exact ih hxs hm2

theorem itemGet_none_of_forall {t : List TItem} {k : List Nat}
    (h : ∀ x ∈ t, x.keyBytes ≠ k) : itemGet t k = none := by
  induction t with
  | nil => rfl
  | cons x xs ih =>
    have hx := h x (List.mem_cons_self _ _)
    simp only [itemGet]
    cases hc : bytesCmp k x.keyBytes
    · rw [if_pos rfl]
    · exact absurd (bytesCmp_eq_iff.mp hc).symm hx
    · rw [if_neg (by decide), if_pos rfl]
      exact ih fun y hy => h y (List.mem_cons_of_mem _ hy)

theorem forall_ne_of_itemGet_none {t : List TItem} {k : List Nat}
    (hs : sortedItems t) (h : itemGet t k = none) :
    ∀ x ∈ t, x.keyBytes ≠ k := by
  intro x hx hk
  rw [itemGet_of_mem hs hx hk] at h
  exact absurd h (by simp)

theorem keys_nodup_of_sorted {t : List TItem} (hs : sortedItems t) :
    (t.map TItem.keyBytes).Nodup := by
  refine List.Pairwise.map TItem.keyBytes ?_ hs
  intro a b hab
  exact bytesCmp_lt_ne hab

theorem key_inj_of_sorted {t : List TItem} (hs : sortedItems t)
    {x y : TItem} (hx : x ∈ t) (hy : y ∈ t)
    (hk : x.keyBytes = y.keyBytes) : x = y := by
  have h1 := itemGet_of_mem hs hx hk
  have h2 := itemGet_of_mem hs hy rfl
  rw [h1] at h2
  exact Option.some.inj h2

theorem itemDelete_fst (t : List TItem) (k : List Nat) :
    (itemDelete t k).1 = itemGet t k := by
  induction t with
  | nil => rfl
  | cons x xs ih =>
    simp only [itemDelete, itemGet]
    split_ifs
    · rfl
    · simpa using ih
    · rfl

theorem itemDelete_sublist (t : List TItem) (k : List Nat) :
    (itemDelete t k).2.Sublist t := by
  induction t with
  | nil => simp [itemDelete]
  | cons x xs ih =>
    simp only [itemDelete]
    split_ifs
    · exact List.Sublist.refl _
    · simpa using List.Sublist.cons₂ x ih
    · simp

theorem itemDelete_snd {t : List TItem} {k : List Nat} (hs : sortedItems t) :
    (itemDelete t k).2 = t.filter (fun x => x.keyBytes != k) := by
  induction t with
  | nil => rfl
  | cons x xs ih =>
    rcases List.pairwise_cons.mp hs with ⟨hx, hxs⟩
    simp only [itemDelete]
    split_ifs with h1 h2
    · have hxk : x.keyBytes ≠ k := fun hc => by
        rw [hc, bytesCmp_self] at h1
        exact absurd h1 (by decide)
      rw [List.filter_cons_of_pos (by simpa using hxk),
          List.filter_eq_self.mpr fun y hy => ?_]
      have hlt : bytesCmp x.keyBytes y.keyBytes = Ordering.lt := hx y hy
      have hky : bytesCmp k y.keyBytes = Ordering.lt := bytesCmp_lt_trans h1 hlt
      simpa using fun hc => by
        rw [hc, bytesCmp_self] at hky
        exact absurd hky (by decide)
    · have hxk : x.keyBytes ≠ k := fun hc => by
        rw [hc, bytesCmp_self] at h2
        exact absurd h2 (by decide)
      rw [List.filter_cons_of_pos (by simpa using hxk)]
      simpa using ih hxs
    · have hcmp : bytesCmp k x.keyBytes = Ordering.eq := by
        cases hc : bytesCmp k x.keyBytes
        · exact absurd hc h1
        · rfl
        · exact absurd hc h2
      have hxk : x.keyBytes = k := (bytesCmp_eq_iff.mp hcmp).symm
      rw [List.filter_cons_of_neg (by simp [hxk]),
          List.filter_eq_self.mpr fun y hy => ?_]
      have hlt : bytesCmp x.keyBytes y.keyBytes = Ordering.lt := hx y hy
      rw [← hxk]
      simpa using fun hc => by
        rw [hc, bytesCmp_self] at hlt
        exact absurd hlt (by decide)

theorem mem_itemDelete {t : List TItem} {k : List Nat} {y : TItem}
    (hs : sortedItems t) :
    y ∈ (itemDelete t k).2 ↔ y ∈ t ∧ y.keyBytes ≠ k := by
  rw [itemDelete_snd hs, List.mem_filter]
  simp

theorem collectExpired_unbounded {cutoff bound : Int} (hm : bound ≤ 0) :
    ∀ (t : List TItem) (acc : List TItem),
    collectExpired cutoff bound t acc = acc ++ t.filter (elig cutoff) := by
  intro t
  induction t with
  | nil => intro acc; simp [collectExpired]
  | cons x xs ih =>
    intro acc
    by_cases hx : x.timestampUnixSeconds ≤ cutoff
    · simp only [collectExpired, if_pos hx]
      rw [if_neg fun hc => by omega]
      rw [ih (acc ++ [x]), List.filter_cons_of_pos (by simp [elig, hx])]
      simp
    · simp only [collectExpired, if_neg hx]
      rw [ih acc, List.filter_cons_of_neg (by simp [elig, hx])]

theorem collectExpired_sublist (cutoff bound : Int) :
    ∀ (t : List TItem) (acc : List TItem),
    ∃ u, u.Sublist t ∧ collectExpired cutoff bound t acc = acc ++ u ∧
      ∀ x ∈ u, elig cutoff x = true := by
  intro t
  induction t with
  | nil =>
    intro acc
    exact ⟨[], List.Sublist.refl _, by simp [collectExpired], by simp⟩
  | cons x xs ih =>
    intro acc
    by_cases hx : x.timestampUnixSeconds ≤ cutoff
    · by_cases hstop : 0 < bound ∧ bound ≤ ((acc ++ [x]).length : Int)
      · refine ⟨[x], ?_, ?_, ?_⟩
        · exact List.Sublist.cons₂ x (List.nil_sublist xs)
        · simp only [collectExpired, if_pos hx]
          rw [if_pos hstop]
        · intro y hy
          rcases List.mem_singleton.mp hy with rfl
          simp [elig, hx]
      · obtain ⟨u, hsub, heq, hel⟩ := ih (acc ++ [x])
        refine ⟨x :: u, List.Sublist.cons₂ x hsub, ?_, ?_⟩
        · simp only [collectExpired, if_pos hx]
          rw [if_neg hstop, heq]
          simp
        · intro y hy
          rcases List.mem_cons.mp hy with rfl | hy2
          · simp [elig, hx]
          · exact hel y hy2
    · obtain ⟨u, hsub, heq, hel⟩ := ih acc
      exact ⟨u, hsub.cons x, by simp [collectExpired, if_neg hx, heq], hel⟩

theorem collectExpired_length_le {cutoff bound : Int} (hb : 0 < bound) :
    ∀ (t : List TItem) (acc : List TItem), acc.length < bound.toNat →
    (collectExpired cutoff bound t acc).length ≤ bound.toNat := by
  intro t
  induction t with
  | nil =>
    intro acc hacc
    simp only [collectExpired]
    omega
  | cons x xs ih =>
    intro acc hacc
    by_cases hx : x.timestampUnixSeconds ≤ cutoff
    · by_cases hstop : 0 < bound ∧ bound ≤ ((acc ++ [x]).length : Int)
      · simp only [collectExpired, if_pos hx]
        rw [if_pos hstop]
        simp only [List.length_append, List.length_cons, List.length_nil]
          at hstop ⊢
        omega
      · simp only [collectExpired, if_pos hx]
        rw [if_neg hstop]
        refine ih (acc ++ [x]) ?_
        simp only [List.length_append, List.length_cons, List.length_nil]
          at hstop ⊢
        omega
    · simp only [collectExpired, if_neg hx]
      exact ih acc hacc

theorem collectExpired_length_eq {cutoff bound : Int} (hb : 0 < bound) :
    ∀ (t : List TItem) (acc : List TItem), acc.length < bound.toNat →
    bound.toNat ≤ acc.length + (t.filter (elig cutoff)).length →
    (collectExpired cutoff bound t acc).length = bound.toNat := by
  intro t
  induction t with
  | nil =>
    intro acc hacc hen
    simp only [List.filter_nil, List.length_nil] at hen
    omega
  | cons x xs ih =>
    intro acc hacc hen
    by_cases hx : x.timestampUnixSeconds ≤ cutoff
    · by_cases hstop : 0 < bound ∧ bound ≤ ((acc ++ [x]).length : Int)
      · simp only [collectExpired, if_pos hx]
        rw [if_pos hstop]
        simp only [List.length_append, List.length_cons, List.length_nil]
          at hstop ⊢
        omega
      · simp only [collectExpired, if_pos hx]
        rw [if_neg hstop]
        refine ih (acc ++ [x]) ?_ ?_
        · simp only [List.length_append, List.length_cons, List.length_nil]
            at hstop ⊢
          omega
        · rw [List.filter_cons_of_pos (by simp [elig, hx])] at hen
          simp only [List.length_append, List.length_cons, List.length_nil]
            at hen ⊢
          omega
    · simp only [collectExpired, if_neg hx]
      refine ih acc hacc ?_
      rw [List.filter_cons_of_neg (by simp [elig, hx])] at hen
      exact hen

theorem deleteItems_count_le : ∀ (cand t : List TItem),
    (deleteItems t cand).1 ≤ cand.length := by
  intro cand
  induction cand with
  | nil => intro t; simp [deleteItems]
  | cons c cs ih =>
    intro t
    simp only [deleteItems, List.length_cons]
    have := ih (itemDelete t c.keyBytes).2
    split_ifs <;> omega

theorem deleteItems_spec : ∀ (cand t : List TItem), sortedItems t →
    (cand.map TItem.keyBytes).Nodup →
    (∀ c ∈ cand, ∃ y ∈ t, y.keyBytes = c.keyBytes) →
    (deleteItems t cand).1 = cand.length ∧
    (deleteItems t cand).2 =
      t.filter (fun x => decide (x.keyBytes ∉ cand.map TItem.keyBytes)) := by
  intro cand
  induction cand with
  | nil =>
    intro t _ _ _
    exact ⟨rfl, (List.filter_eq_self.mpr fun a _ => by simp).symm⟩
  | cons c cs ih =>
    intro t hs hnd hpres
    obtain ⟨y, hyt, hyk⟩ := hpres c (List.mem_cons_self _ _)
    have hget : itemGet t c.keyBytes = some y := itemGet_of_mem hs hyt hyk
    have hfst : (itemDelete t c.keyBytes).1 = some y := by
      rw [itemDelete_fst, hget]
    have hsnd : (itemDelete t c.keyBytes).2 =
        t.filter (fun x => x.keyBytes != c.keyBytes) := itemDelete_snd hs
    have hsort2 : sortedItems (itemDelete t c.keyBytes).2 :=
      List.Pairwise.sublist (itemDelete_sublist t _) hs
    have hnd2 : (cs.map TItem.keyBytes).Nodup := (List.nodup_cons.mp hnd).2
    have hcnot : c.keyBytes ∉ cs.map TItem.keyBytes := (List.nodup_cons.mp hnd).1
    have hpres2 : ∀ c2 ∈ cs, ∃ y2 ∈ (itemDelete t c.keyBytes).2,
        y2.keyBytes = c2.keyBytes := by
      intro c2 hc2
      obtain ⟨y2, hy2t, hy2k⟩ := hpres c2 (List.mem_cons_of_mem _ hc2)
      refine ⟨y2, ?_, hy2k⟩
      rw [hsnd, List.mem_filter]
      refine ⟨hy2t, ?_⟩
      have : c2.keyBytes ∈ cs.map TItem.keyBytes :=
        List.mem_map_of_mem _ hc2
      simp only [bne_iff_ne, ne_eq]
      rw [hy2k]
      intro hc
      exact hcnot (hc ▸ this)
    obtain ⟨hcount, hstate⟩ := ih (itemDelete t c.keyBytes).2 hsort2 hnd2 hpres2
    constructor
    · simp only [deleteItems, hfst, Option.isSome_some, List.length_cons, if_true]
      rw [hcount]
      omega
    · simp only [deleteItems]
      rw [hstate, hsnd, List.filter_filter]
      refine List.filter_congr ?_
      intro x hx
      by_cases h1 : x.keyBytes ∈ cs.map TItem.keyBytes <;>
        by_cases h2 : x.keyBytes = c.keyBytes <;>
          simp [h1, h2]

theorem filter_partition_length {α : Type} (p : α → Bool) :
    ∀ L : List α,
    (L.filter p).length + (L.filter (fun x => !p x)).length = L.length := by
  intro L
  induction L with
  | nil => rfl
  | cons x xs ih =>
    cases hx : p x <;> simp [List.filter_cons, hx] <;> omega

theorem filter_mem_keys_of_sublist :
    ∀ (L u : List TItem), u.Sublist L → (L.map TItem.keyBytes).Nodup →
    L.filter (fun x => decide (x.keyBytes ∈ u.map TItem.keyBytes)) = u := by
  intro L
  induction L with
  | nil =>
    intro u hsub _
    rw [List.sublist_nil.mp hsub]
    rfl
  | cons x L' ih =>
    intro u hsub hnd
    simp only [List.map_cons, List.nodup_cons] at hnd
    obtain ⟨hxk, hnd2⟩ := hnd
    cases hsub with
    | cons _ h =>
      have hxnot : x.keyBytes ∉ u.map TItem.keyBytes := by
        intro hc
        obtain ⟨y, hy, hyk⟩ := List.mem_map.mp hc
        exact hxk (hyk ▸ List.mem_map_of_mem _ (h.subset hy))
      rw [List.filter_cons_of_neg (by simp [hxnot])]
      exact ih u h hnd2
    | cons₂ _ h =>
      rename_i u'
      rw [List.filter_cons_of_pos (by simp)]
      have hcongr : L'.filter
          (fun y => decide (y.keyBytes ∈ (x :: u').map TItem.keyBytes)) =
          L'.filter (fun y => decide (y.keyBytes ∈ u'.map TItem.keyBytes)) := by
        refine List.filter_congr ?_
        intro y hyL
        have hyx : y.keyBytes ≠ x.keyBytes := fun hc =>
          hxk (hc ▸ List.mem_map_of_mem _ hyL)
        simp [hyx]
      rw [hcongr, ih u' h hnd2]

theorem PurgeExpiredAt_unbounded (t : List TItem) (now ttl m : Int)
    (hs : sortedItems t) (httl : 0 < ttl) (hm : m ≤ 0) :
    PurgeExpiredAt t now ttl m =
      ((t.filter (elig (now - ttl))).length,
       t.filter (fun x => !(elig (now - ttl) x))) := by
  have hcand := @collectExpired_unbounded (now - ttl) m hm t []
  simp only [List.nil_append] at hcand
  simp only [PurgeExpiredAt]
  rw [if_neg (by omega), hcand]
  by_cases hempty : (t.filter (elig (now - ttl))).length = 0
  · rw [if_pos hempty]
    have hnil : t.filter (elig (now - ttl)) = [] := List.length_eq_zero.mp hempty
    have hall : ∀ x ∈ t, ¬ elig (now - ttl) x = true :=
      List.filter_eq_nil_iff.mp hnil
    rw [Prod.ext_iff]
    refine ⟨hempty.symm, ?_⟩
    refine (List.filter_eq_self.mpr ?_).symm
    intro x hx
    simp [Bool.eq_false_iff.mpr (hall x hx)]
  · rw [if_neg hempty]
    obtain ⟨hcount, hstate⟩ := deleteItems_spec (t.filter (elig (now - ttl))) t hs
      (((List.filter_sublist t).map TItem.keyBytes).nodup (keys_nodup_of_sorted hs))
      (fun c hc => ⟨c, (List.mem_filter.mp hc).1, rfl⟩)
    rw [Prod.ext_iff]
    refine ⟨hcount, ?_⟩
    rw [hstate]
    refine List.filter_congr ?_
    intro x hx
    by_cases he : elig (now - ttl) x = true
    · have hmem : x.keyBytes ∈ (t.filter (elig (now - ttl))).map TItem.keyBytes :=
        List.mem_map_of_mem _ (List.mem_filter.mpr ⟨hx, he⟩)
      simp [hmem, he]
    · have hnmem : x.keyBytes ∉ (t.filter (elig (now - ttl))).map TItem.keyBytes := by
        intro hc
        obtain ⟨y, hy, hyk⟩ := List.mem_map.mp hc
        obtain ⟨hyt, hye⟩ := List.mem_filter.mp hy
        rw [key_inj_of_sorted hs hyt hx hyk] at hye
        exact he hye
      simp [hnmem, Bool.eq_false_iff.mpr he]

theorem PurgeExpiredAt_bounded_spec (t : List TItem) (now ttl n : Int)
    (hs : sortedItems t) (httl : 0 < ttl) (hn : 0 < n)
    (hE : n.toNat ≤ (t.filter (elig (now - ttl))).length) :
    ∃ u : List TItem, u.Sublist t ∧ (∀ x ∈ u, elig (now - ttl) x = true) ∧
      u.length = n.toNat ∧
      PurgeExpiredAt t now ttl n =
        (n.toNat, t.filter (fun x => decide (x.keyBytes ∉ u.map TItem.keyBytes))) := by
  obtain ⟨u, hsub, heq, hel⟩ := collectExpired_sublist (now - ttl) n t []
  simp only [List.nil_append] at heq
  have hlen : u.length = n.toNat := by
    have h2 := collectExpired_length_eq hn t [] (by simp; omega)
      (by simpa using hE)
    rw [heq] at h2
    exact h2
  refine ⟨u, hsub, hel, hlen, ?_⟩
  simp only [PurgeExpiredAt]
  rw [if_neg (by omega), heq, if_neg (by omega)]
  obtain ⟨hcount, hstate⟩ := deleteItems_spec u t hs
    ((hsub.map TItem.keyBytes).nodup (keys_nodup_of_sorted hs))
    (fun c hc => ⟨c, hsub.subset hc, rfl⟩)
  rw [Prod.ext_iff]
  exact ⟨by rw [hcount, hlen], hstate⟩

/-- C4: with ttl > 0 and cutoff = now - ttl, a record whose expiration
equals the cutoff is returned by ListExpiredAt and deleted by
PurgeExpiredAt (inclusive boundary), while a record at cutoff + 1 second
is listed by neither and survives the purge. -/
theorem claim_C4 (t : List TItem) (now ttl : Int) (it1 it2 : TItem)
    (hs : sortedItems t) (httl : 0 < ttl)
    (h1t : it1 ∈ t) (h1e : it1.timestampUnixSeconds = now - ttl)
    (h2t : it2 ∈ t) (h2e : it2.timestampUnixSeconds = now - ttl + 1) :
    it1 ∈ ListExpiredAt t now ttl 0 ∧
    itemGet (PurgeExpiredAt t now ttl 0).2 it1.keyBytes = none ∧
    it2 ∉ ListExpiredAt t now ttl 0 ∧
    itemGet (PurgeExpiredAt t now ttl 0).2 it2.keyBytes = some it2 := by
  have hlist : ListExpiredAt t now ttl 0 = t.filter (elig (now - ttl)) := by
    simp only [ListExpiredAt]
    rw [if_neg (by omega)]
    simpa using @collectExpired_unbounded (now - ttl) 0 (by omega) t []
  have hpurge := PurgeExpiredAt_unbounded t now ttl 0 hs httl (le_refl 0)
  have he1 : elig (now - ttl) it1 = true := by
    simp [elig, h1e]
  have he2 : elig (now - ttl) it2 = false := by
    simp only [elig, h2e, decide_eq_false_iff_not]
    omega
  refine ⟨?_, ?_, ?_, ?_⟩
  · rw [hlist]
    exact List.mem_filter.mpr ⟨h1t, he1⟩
  · rw [hpurge]
    refine itemGet_none_of_forall ?_
    intro x hx hk
    obtain ⟨hxt, hxe⟩ := List.mem_filter.mp hx
    rw [key_inj_of_sorted hs hxt h1t hk, he1] at hxe
    exact absurd hxe (by decide)
  · rw [hlist]
    intro hc
    have h3 := (List.mem_filter.mp hc).2
    rw [he2] at h3
    exact absurd h3 (by decide)
  · rw [hpurge]
    refine itemGet_of_mem (List.Pairwise.sublist (List.filter_sublist t) hs)
      (List.mem_filter.mpr ⟨h2t, by simp [he2]⟩) rfl

/-- C4 witness: two records at the cutoff and one second after it. -/
theorem claim_C4_witness :
    sortedItems [⟨[1], none, 95⟩, ⟨[2], none, 96⟩] ∧
    ((⟨[1], none, 95⟩ : TItem) ∈
      ListExpiredAt [⟨[1], none, 95⟩, ⟨[2], none, 96⟩] 100 5 0 ∧
    itemGet (PurgeExpiredAt [⟨[1], none, 95⟩, ⟨[2], none, 96⟩] 100 5 0).2 [1] = none ∧
    (⟨[2], none, 96⟩ : TItem) ∉
      ListExpiredAt [⟨[1], none, 95⟩, ⟨[2], none, 96⟩] 100 5 0 ∧
    itemGet (PurgeExpiredAt [⟨[1], none, 95⟩, ⟨[2], none, 96⟩] 100 5 0).2 [2] =
      some ⟨[2], none, 96⟩) :=
  ⟨by decide, claim_C4 [⟨[1], none, 95⟩, ⟨[2], none, 96⟩] 100 5
    ⟨[1], none, 95⟩ ⟨[2], none, 96⟩ (by decide) (by decide) (by decide)
    (by decide) (by decide) (by decide)⟩

/-- C5: with more than n eligible records and n > 0, PurgeExpiredAt
deletes at most n records; a following unbounded call (m <= 0) deletes
exactly the remaining eligible records, leaving none eligible. -/
theorem claim_C5 (t : List TItem) (now ttl n m : Int)
    (hs : sortedItems t) (httl : 0 < ttl) (hn : 0 < n) (hm : m ≤ 0)
    (hE : n.toNat < (t.filter (elig (now - ttl))).length) :
    (PurgeExpiredAt t now ttl n).1 ≤ n.toNat ∧
    (PurgeExpiredAt t now ttl n).1 +
      (PurgeExpiredAt (PurgeExpiredAt t now ttl n).2 now ttl m).1 =
      (t.filter (elig (now - ttl))).length ∧
    ∀ x ∈ (PurgeExpiredAt (PurgeExpiredAt t now ttl n).2 now ttl m).2,
      ¬ (x.timestampUnixSeconds ≤ now - ttl) := by
  obtain ⟨u, hsub, hel, hulen, hpeq⟩ :=
    PurgeExpiredAt_bounded_spec t now ttl n hs httl hn (le_of_lt hE)
  have hstate1 : (PurgeExpiredAt t now ttl n).2 =
      t.filter (fun x => decide (x.keyBytes ∉ u.map TItem.keyBytes)) := by
    rw [hpeq]
  have hcount1 : (PurgeExpiredAt t now ttl n).1 = n.toNat := by rw [hpeq]
  have hsort1 : sortedItems (PurgeExpiredAt t now ttl n).2 := by
    rw [hstate1]
    exact List.Pairwise.sublist (List.filter_sublist t) hs
  have hpurge2 := PurgeExpiredAt_unbounded (PurgeExpiredAt t now ttl n).2 now ttl m hsort1 httl hm
  have hLkeys : ((t.filter (elig (now - ttl))).map TItem.keyBytes).Nodup :=
    ((List.filter_sublist t).map TItem.keyBytes).nodup (keys_nodup_of_sorted hs)
  have huL : u.Sublist (t.filter (elig (now - ttl))) := by
    have h1 : u.filter (elig (now - ttl)) = u := List.filter_eq_self.mpr hel
    have h2 := hsub.filter (elig (now - ttl))
    rw [h1] at h2
    exact h2
  have hfilmem := filter_mem_keys_of_sublist (t.filter (elig (now - ttl))) u
    huL hLkeys
  have hpart := filter_partition_length
    (fun x => decide (x.keyBytes ∈ u.map TItem.keyBytes))
    (t.filter (elig (now - ttl)))
  have hcomm : (PurgeExpiredAt t now ttl n).2.filter (elig (now - ttl)) =
      (t.filter (elig (now - ttl))).filter
        (fun x => !(decide (x.keyBytes ∈ u.map TItem.keyBytes))) := by
    rw [hstate1, List.filter_filter, List.filter_filter]
    refine List.filter_congr ?_
    intro x hx
    rw [Bool.and_comm]
    refine congrArg (fun b => b && elig (now - ttl) x) ?_
    rw [← decide_not, decide_eq_decide]
  have hlen2 : ((PurgeExpiredAt t now ttl n).2.filter (elig (now - ttl))).length =
      (t.filter (elig (now - ttl))).length - n.toNat := by
    rw [hcomm]
    rw [hfilmem] at hpart
    omega
  refine ⟨?_, ?_, ?_⟩
  · rw [hcount1]
  · rw [hcount1, hpurge2]
    show n.toNat + ((PurgeExpiredAt t now ttl n).2.filter (elig (now - ttl))).length = _
    rw [hlen2]
    omega
  · intro x hx
    rw [hpurge2] at hx
    obtain ⟨-, hxe⟩ := List.mem_filter.mp hx
    simp only [Bool.not_eq_eq_eq_not, Bool.not_true, elig,
      decide_eq_false_iff_not] at hxe
    exact hxe

/-- C5 witness: three eligible records, first purge bounded by 1, second
unbounded deletes the remaining two. -/
theorem claim_C5_witness :
    (sortedItems [⟨[1], none, 90⟩, ⟨[2], none, 91⟩, ⟨[3], none, 92⟩] ∧
      (1 : Int).toNat <
        (List.filter (elig (100 - 5))
          [⟨[1], none, 90⟩, ⟨[2], none, 91⟩, ⟨[3], none, 92⟩]).length) ∧
    ((PurgeExpiredAt [⟨[1], none, 90⟩, ⟨[2], none, 91⟩, ⟨[3], none, 92⟩]
        100 5 1).1 ≤ (1 : Int).toNat ∧
    (PurgeExpiredAt [⟨[1], none, 90⟩, ⟨[2], none, 91⟩, ⟨[3], none, 92⟩]
        100 5 1).1 +
      (PurgeExpiredAt (PurgeExpiredAt
        [⟨[1], none, 90⟩, ⟨[2], none, 91⟩, ⟨[3], none, 92⟩] 100 5 1).2
        100 5 0).1 =
      (List.filter (elig (100 - 5))
        [⟨[1], none, 90⟩, ⟨[2], none, 91⟩, ⟨[3], none, 92⟩]).length ∧
    ∀ x ∈ (PurgeExpiredAt (PurgeExpiredAt
        [⟨[1], none, 90⟩, ⟨[2], none, 91⟩, ⟨[3], none, 92⟩] 100 5 1).2
        100 5 0).2,
      ¬ (x.timestampUnixSeconds ≤ 100 - 5)) :=
  ⟨⟨by decide, by decide⟩,
    claim_C5 [⟨[1], none, 90⟩, ⟨[2], none, 91⟩, ⟨[3], none, 92⟩] 100 5 1 0
      (by decide) (by decide) (by decide) (by decide) (by decide)⟩

/-- C6: a non-positive ttl makes PurgeExpiredAt a no-op returning 0 with
the index unchanged, and makes ListExpiredAt return the empty (nil)
result with the index untouched. -/
theorem claim_C6 (t : List TItem) (now ttl limit : Int) (h : ttl ≤ 0) :
    PurgeExpiredAt t now ttl limit = (0, t) ∧
    ListExpiredAt t now ttl limit = [] := by
  constructor
  · simp only [PurgeExpiredAt]
    rw [if_pos h]
  · simp only [ListExpiredAt]
    rw [if_pos h]

/-- C6 witness: ttl = 0 and ttl = -3 on a one-record index. -/
theorem claim_C6_witness :
    (PurgeExpiredAt [⟨[7], none, 1⟩] 100 0 10 = (0, [⟨[7], none, 1⟩]) ∧
      ListExpiredAt [⟨[7], none, 1⟩] 100 0 10 = []) ∧
    (PurgeExpiredAt [⟨[7], none, 1⟩] 100 (-3) 0 = (0, [⟨[7], none, 1⟩]) ∧
      ListExpiredAt [⟨[7], none, 1⟩] 100 (-3) 0 = []) :=
  ⟨claim_C6 [⟨[7], none, 1⟩] 100 0 10 (by decide),
   claim_C6 [⟨[7], none, 1⟩] 100 (-3) 0 (by decide)⟩

theorem upsertManyLoop_isSome (at_ : Int) :
    ∀ (items : List (Option TItem)) (t : List TItem) (acc : Nat),
    none ∉ items → (upsertManyLoop t at_ acc items).isSome = true := by
  intro items
  induction items with
  | nil => intro t acc _; rfl
  | cons i rest ih =>
    intro t acc hni
    cases i with
    | none => exact absurd (List.mem_cons_self _ _) hni
    | some it =>
      have hrest : none ∉ rest := fun hc => hni (List.mem_cons_of_mem _ hc)
      by_cases hk : it.keyBytes.length = 0
      · simp only [upsertManyLoop, if_pos hk]
        exact ih t acc hrest
      · simp only [upsertManyLoop, if_neg hk]
        exact ih _ _ hrest

theorem deleteManyLoop_isSome :
    ∀ (items : List (Option TItem)) (t : List TItem) (acc : Nat),
    none ∉ items → (deleteManyLoop t acc items).isSome = true := by
  intro items
  induction items with
  | nil => intro t acc _; rfl
  | cons i rest ih =>
    intro t acc hni
    cases i with
    | none => exact absurd (List.mem_cons_self _ _) hni
    | some it =>
      have hrest : none ∉ rest := fun hc => hni (List.mem_cons_of_mem _ hc)
      by_cases hk : it.keyBytes.length = 0
      · simp only [deleteManyLoop, if_pos hk]
        exact ih t acc hrest
      · simp only [deleteManyLoop, if_neg hk]
        exact ih _ _ hrest

theorem upsertManyLoop_eq (t : List TItem) (at_ : Int)
    (rest : List (Option TItem)) :
    upsertManyLoop t at_ 0 rest = UpsertManyAt t rest at_ := by
  cases rest with
  | nil => rfl
  | cons i r =>
    simp only [UpsertManyAt]
    rw [if_neg (by simp)]

theorem deleteManyLoop_eq (t : List TItem) (rest : List (Option TItem)) :
    deleteManyLoop t 0 rest = DeleteMany t rest := by
  cases rest with
  | nil => rfl
  | cons i r =>
    simp only [DeleteMany]
    rw [if_neg (by simp)]

/-- C9 counterexample: a nil record in the list makes both UpsertManyAt
and DeleteMany panic (the unguarded `item.Key()` call), refuting the
claim that the call returns normally on every input list. -/
theorem claim_C9_counterexample :
    UpsertManyAt [] [none] 5 = none ∧ DeleteMany [] [none] = none := by
  decide

/-- C9 amended: UpsertManyAt and DeleteMany return normally on every
list containing no nil record, and an empty-key record is skipped (not
counted, remaining records still processed); a nil record, unlike in
the single-item UpsertAt/Delete, is not guarded against and panics. -/
theorem claim_C9_amended (t : List TItem) (items : List (Option TItem))
    (at_ : Int) (it : TItem) (rest : List (Option TItem))
    (hnonil : none ∉ items) (hempty : it.keyBytes = []) :
    (UpsertManyAt t items at_).isSome = true ∧
    (DeleteMany t items).isSome = true ∧
    UpsertManyAt t (some it :: rest) at_ = UpsertManyAt t rest at_ ∧
    DeleteMany t (some it :: rest) = DeleteMany t rest := by
  have hk : it.keyBytes.length = 0 := by rw [hempty]; rfl
  refine ⟨?_, ?_, ?_, ?_⟩
  · simp only [UpsertManyAt]
    split_ifs
    · rfl
    · exact upsertManyLoop_isSome at_ items t 0 hnonil
  · simp only [DeleteMany]
    split_ifs
    · rfl
    · exact deleteManyLoop_isSome items t 0 hnonil
  · have h1 : UpsertManyAt t (some it :: rest) at_ =
        upsertManyLoop t at_ 0 (some it :: rest) := by
      simp only [UpsertManyAt]
      rw [if_neg (by simp)]
    rw [h1]
    simp only [upsertManyLoop, if_pos hk]
    exact upsertManyLoop_eq t at_ rest
  · have h1 : DeleteMany t (some it :: rest) =
        deleteManyLoop t 0 (some it :: rest) := by
      simp only [DeleteMany]
      rw [if_neg (by simp)]
    rw [h1]
    simp only [deleteManyLoop, if_pos hk]
    exact deleteManyLoop_eq t rest

/-- C9 amended witness: a singleton non-nil list and an empty-key head. -/
theorem claim_C9_amended_witness :
    ((none : Option TItem) ∉ [some (⟨[1], none, 0⟩ : TItem)] ∧
      (⟨[], none, 0⟩ : TItem).keyBytes = []) ∧
    ((UpsertManyAt [] [some (⟨[1], none, 0⟩ : TItem)] 7).isSome = true ∧
    (DeleteMany [] [some (⟨[1], none, 0⟩ : TItem)]).isSome = true ∧
    UpsertManyAt [] (some (⟨[], none, 0⟩ : TItem) :: [some (⟨[1], none, 0⟩ : TItem)]) 7 =
      UpsertManyAt [] [some (⟨[1], none, 0⟩ : TItem)] 7 ∧
    DeleteMany [] (some (⟨[], none, 0⟩ : TItem) :: [some (⟨[1], none, 0⟩ : TItem)]) =
      DeleteMany [] [some (⟨[1], none, 0⟩ : TItem)]) :=
  ⟨⟨by decide, by decide⟩,
    claim_C9_amended [] [some ⟨[1], none, 0⟩] 7 ⟨[], none, 0⟩
      [some ⟨[1], none, 0⟩] (by decide) (by decide)⟩

end TTL

namespace TTLHeap

theorem keyAt_set_ne {h : List ItemObj} {r1 r : Nat} {o : ItemObj}
    (hne : r ≠ r1) : keyAt (h.set r1 o) r = keyAt h r := by
  unfold keyAt objAt
  rw [List.getD_eq_getElem?_getD, List.getD_eq_getElem?_getD,
    List.getElem?_set_ne (Ne.symm hne)]

theorem objAt_set_ne {h : List ItemObj} {r1 r : Nat} {o : ItemObj}
    (hne : r ≠ r1) : objAt (h.set r1 o) r = objAt h r := by
  unfold objAt
  rw [List.getD_eq_getElem?_getD, List.getD_eq_getElem?_getD,
    List.getElem?_set_ne (Ne.symm hne)]

theorem keyAt_set_self {h : List ItemObj} {r1 : Nat} {o : ItemObj}
    (hlt : r1 < h.length) : keyAt (h.set r1 o) r1 = o.keyBytes := by
  unfold keyAt objAt
  rw [List.getD_eq_getElem?_getD, List.getElem?_set_self hlt]
  rfl

theorem refGet_mem {h : List ItemObj} {tr : List Nat} {k : List Nat} {r : Nat}
    (hg : refGet h tr k = some r) : r ∈ tr ∧ keyAt h r = k := by
  induction tr with
  | nil => simp [refGet] at hg
  | cons x xs ih =>
    simp only [refGet] at hg
    split_ifs at hg with h1 h2
    · rcases ih hg with ⟨hm, hk⟩
      exact ⟨List.mem_cons_of_mem _ hm, hk⟩
    · have hcmp : bytesCmp k (keyAt h x) = Ordering.eq := by
        cases hc : bytesCmp k (keyAt h x)
        · exact absurd hc h1
        · rfl
        · exact absurd hc h2
      cases hg
      exact ⟨List.mem_cons_self _ _, (bytesCmp_eq_iff.mp hcmp).symm⟩

theorem refReplace_replaces {h : List ItemObj} {k : List Nat} {r1 : Nat}
    (hk1 : keyAt h r1 = k) :
    ∀ {tr : List Nat} {r0 : Nat},
    tr.Pairwise (fun a b => bytesCmp (keyAt h a) (keyAt h b) = Ordering.lt) →
    r0 ∈ tr → keyAt h r0 = k →
    (refReplaceOrInsert h tr r1).1 = some r0 ∧
    refGet h (refReplaceOrInsert h tr r1).2 k = some r1 ∧
    ∀ x ∈ (refReplaceOrInsert h tr r1).2,
      x = r1 ∨ (x ∈ tr ∧ keyAt h x ≠ k) := by
  intro tr
  induction tr with
  | nil => intro r0 _ hm; simp at hm
  | cons x xs ih =>
    intro r0 hsort hmem hk0
    rcases List.pairwise_cons.mp hsort with ⟨hx, hxs⟩
    cases hc : bytesCmp (keyAt h r1) (keyAt h x) with
    | lt =>
      exfalso
      rw [hk1] at hc
      rcases List.mem_cons.mp hmem with rfl | hm2
      · rw [hk0] at hc
        rw [bytesCmp_self] at hc
        exact absurd hc (by decide)
      · have hlt := hx r0 hm2
        rw [hk0] at hlt
        have := bytesCmp_lt_trans hc hlt
        rw [bytesCmp_self] at this
        exact absurd this (by decide)
    | gt =>
      have hxk : keyAt h x ≠ k := by
        rw [hk1] at hc
        intro hcc
        rw [hcc] at hc
        have := bytesCmp_gt_iff.mp hc
        rw [bytesCmp_self] at this
        exact absurd this (by decide)
      have hm2 : r0 ∈ xs := by
        rcases List.mem_cons.mp hmem with rfl | hm2
        · exact absurd hk0 hxk
        · exact hm2
      obtain ⟨hfst, hget, hmemc⟩ := ih hxs hm2 hk0
      simp only [refReplaceOrInsert]
      rw [if_neg (by rw [hc]; decide), if_pos hc]
      refine ⟨hfst, ?_, ?_⟩
      · simp only [refGet]
        have hgt2 : bytesCmp k (keyAt h x) = Ordering.gt := by
          rw [← hk1]
          exact hc
        rw [if_neg (by rw [hgt2]; decide), if_pos hgt2]
        exact hget
      · intro y hy
        rcases List.mem_cons.mp hy with rfl | hy2
        · exact Or.inr ⟨List.mem_cons_self _ _, hxk⟩
        · rcases hmemc y hy2 with hcase | ⟨hmm, hkk⟩
          · exact Or.inl hcase
          · exact Or.inr ⟨List.mem_cons_of_mem _ hmm, hkk⟩
    | eq =>
      have hxeq : keyAt h x = k := by
        rw [hk1] at hc
        exact (bytesCmp_eq_iff.mp hc).symm
      have hr0x : r0 = x := by
        rcases List.mem_cons.mp hmem with rfl | hm2
        · rfl
        · exfalso
          have hlt := hx r0 hm2
          rw [hxeq, hk0] at hlt
          rw [bytesCmp_self] at hlt
          exact absurd hlt (by decide)
      simp only [refReplaceOrInsert]
      rw [if_neg (by rw [hc]; decide), if_neg (by rw [hc]; decide)]
      refine ⟨by rw [hr0x], ?_, ?_⟩
      · simp only [refGet]
        have hceq : bytesCmp k (keyAt h r1) = Ordering.eq := by
          rw [hk1, bytesCmp_self]
        rw [if_neg (by rw [hceq]; decide), if_neg (by rw [hceq]; decide)]
      · intro y hy
        rcases List.mem_cons.mp hy with rfl | hy2
        · exact Or.inl rfl
        · refine Or.inr ⟨List.mem_cons_of_mem _ hy2, ?_⟩
          have hlt := hx y hy2
          rw [hxeq] at hlt
          intro hcc
          rw [hcc] at hlt
          rw [bytesCmp_self] at hlt
          exact absurd hlt (by decide)

/-- C3 counterexample: object 0 is upserted first under key [1]; a second
Upsert with a distinct caller object 1 carrying the same key leaves the
index holding object 1, not object 0 — the indexed record was replaced by
the caller's new record object, the original object's expiration was not
updated (still 10, not 20), and a handle to object 0 obtained before the
second Upsert no longer aliases the indexed record. -/
theorem claim_C3_counterexample :
    (UpsertAt (UpsertAt ⟨[⟨[1], none, 0⟩, ⟨[1], none, 0⟩], []⟩
      (some 0) 10).2 (some 1) 20).2.tree = [1] ∧
    GetNodeItem (UpsertAt (UpsertAt ⟨[⟨[1], none, 0⟩, ⟨[1], none, 0⟩], []⟩
      (some 0) 10).2 (some 1) 20).2 (some 0) = some 1 ∧
    (1 : Nat) ≠ 0 ∧
    objAt (UpsertAt (UpsertAt ⟨[⟨[1], none, 0⟩, ⟨[1], none, 0⟩], []⟩
      (some 0) 10).2 (some 1) 20).2.heap 0 = ⟨[1], none, 10⟩ := by
  decide

/-- C3 amended: the record for k is created by the first Upsert; a later
Upsert on k with a new caller object replaces the indexed record with
that object (after setting its expiration in place): the upsert reports
isNew = false, the index now holds (and GetNodeItem returns) the caller's
new object, the previously indexed object is no longer in the index and
is left untouched — so a handle obtained before the Upsert aliases a
record that is no longer the indexed one. -/
theorem claim_C3_amended (st : HState) (r0 r1 : Nat) (k : List Nat) (ts : Int)
    (hWF : WFH st) (hget : refGet st.heap st.tree k = some r0)
    (hr1 : r1 < st.heap.length) (hr1k : keyAt st.heap r1 = k)
    (hfresh : r1 ∉ st.tree) (hne : k ≠ []) :
    (UpsertAt st (some r1) ts).1 = false ∧
    refGet (UpsertAt st (some r1) ts).2.heap
      (UpsertAt st (some r1) ts).2.tree k = some r1 ∧
    r0 ∉ (UpsertAt st (some r1) ts).2.tree ∧
    objAt (UpsertAt st (some r1) ts).2.heap r0 = objAt st.heap r0 ∧
    GetNodeItem (UpsertAt st (some r1) ts).2 (some r1) = some r1 := by
  obtain ⟨hvalid, hsort⟩ := hWF
  obtain ⟨hr0m, hr0k⟩ := refGet_mem hget
  have hr0ne : r0 ≠ r1 := fun hc => hfresh (hc ▸ hr0m)
  have hklen : ¬ (keyAt st.heap r1).length = 0 := by
    rw [hr1k]
    intro hc
    exact hne (List.eq_nil_of_length_eq_zero hc)
  have hueq : UpsertAt st (some r1) ts =
      ((refReplaceOrInsert (st.heap.set r1
          { objAt st.heap r1 with timestampUnixSeconds := ts }) st.tree r1).1.isNone,
       { heap := st.heap.set r1 { objAt st.heap r1 with timestampUnixSeconds := ts },
         tree := (refReplaceOrInsert (st.heap.set r1
          { objAt st.heap r1 with timestampUnixSeconds := ts }) st.tree r1).2 }) := by
    simp only [UpsertAt]
    rw [if_neg hklen]
  set h2 := st.heap.set r1 { objAt st.heap r1 with timestampUnixSeconds := ts }
    with hh2
  have hkeep : ∀ x ∈ st.tree, keyAt h2 x = keyAt st.heap x := by
    intro x hx
    exact keyAt_set_ne fun hc => hfresh (hc ▸ hx)
  have hk1 : keyAt h2 r1 = k := by
    rw [hh2, keyAt_set_self hr1]
    exact hr1k
  have hsort2 : st.tree.Pairwise
      (fun a b => bytesCmp (keyAt h2 a) (keyAt h2 b) = Ordering.lt) := by
    refine List.Pairwise.imp_of_mem ?_ hsort
    intro a b ha hb hr
    rw [hkeep a ha, hkeep b hb]
    exact hr
  have hk0 : keyAt h2 r0 = k := by
    rw [hkeep r0 hr0m]
    exact hr0k
  obtain ⟨hfst, hget2, hmemc⟩ := refReplace_replaces hk1 hsort2 hr0m hk0
  rw [hueq]
  refine ⟨by rw [hfst]; rfl, hget2, ?_, ?_, ?_⟩
  · intro hc
    rcases hmemc r0 hc with hcase | ⟨-, hkk⟩
    · exact hr0ne hcase
    · exact hkk hk0
  · exact objAt_set_ne hr0ne
  · simp only [GetNodeItem]
    rw [if_neg (by rw [hk1]; exact hklen ∘ (by rw [hr1k]; exact fun h => h)), hk1]
    exact hget2

/-- C3 amended witness: the two-object heap of the counterexample. -/
theorem claim_C3_amended_witness :
    WFH ⟨[⟨[1], none, 10⟩, ⟨[1], none, 0⟩], [0]⟩ ∧
    ((UpsertAt ⟨[⟨[1], none, 10⟩, ⟨[1], none, 0⟩], [0]⟩ (some 1) 20).1 = false ∧
    refGet (UpsertAt ⟨[⟨[1], none, 10⟩, ⟨[1], none, 0⟩], [0]⟩ (some 1) 20).2.heap
      (UpsertAt ⟨[⟨[1], none, 10⟩, ⟨[1], none, 0⟩], [0]⟩ (some 1) 20).2.tree [1] =
      some 1 ∧
    0 ∉ (UpsertAt ⟨[⟨[1], none, 10⟩, ⟨[1], none, 0⟩], [0]⟩ (some 1) 20).2.tree ∧
    objAt (UpsertAt ⟨[⟨[1], none, 10⟩, ⟨[1], none, 0⟩], [0]⟩ (some 1) 20).2.heap 0 =
      objAt (⟨[⟨[1], none, 10⟩, ⟨[1], none, 0⟩], [0]⟩ : HState).heap 0 ∧
    GetNodeItem (UpsertAt ⟨[⟨[1], none, 10⟩, ⟨[1], none, 0⟩], [0]⟩ (some 1) 20).2
      (some 1) = some 1) :=
  ⟨by decide, claim_C3_amended ⟨[⟨[1], none, 10⟩, ⟨[1], none, 0⟩], [0]⟩ 0 1 [1] 20
    (by decide) (by decide) (by decide) (by decide) (by decide) (by decide)⟩

end TTLHeap

namespace TTLSlice

theorem forEachClone_spec :
    ∀ (t : List (Nat × Int)) (h : List (List Nat)),
    (∃ ext, (forEachClone h t).1 = h ++ ext) ∧
    ∀ r ∈ (forEachClone h t).2, h.length ≤ r := by
  intro t
  induction t with
  | nil =>
    intro h
    exact ⟨⟨[], by simp [forEachClone]⟩, by simp [forEachClone]⟩
  | cons x rest ih =>
    intro h
    by_cases hsrc : (h.getD x.1 []).length = 0
    · have hcl : cloneAlloc h (h.getD x.1 []) = (h, none) := by
        unfold cloneAlloc
        rw [if_pos hsrc]
      obtain ⟨⟨ext, hext⟩, hge⟩ := ih h
      constructor
      · exact ⟨ext, by simp only [forEachClone, hcl]; exact hext⟩
      · intro r hr
        simp only [forEachClone, hcl] at hr
        exact hge r hr
    · have hcl : cloneAlloc h (h.getD x.1 []) =
          (h ++ [h.getD x.1 []], some h.length) := by
        unfold cloneAlloc
        rw [if_neg hsrc]
      obtain ⟨⟨ext, hext⟩, hge⟩ := ih (h ++ [h.getD x.1 []])
      constructor
      · refine ⟨[h.getD x.1 []] ++ ext, ?_⟩
        simp only [forEachClone, hcl]
        rw [hext, List.append_assoc]
      · intro r hr
        simp only [forEachClone, hcl, List.mem_cons] at hr
        rcases hr with rfl | hr2
        · exact le_refl _
        · have := hge r hr2
          simp only [List.length_append, List.length_cons, List.length_nil] at this
          omega

theorem mutateCells_preserve (f : Nat → Option (List Nat)) :
    ∀ (passed : List Nat) (h : List (List Nat)) (r : Nat),
    (∀ p ∈ passed, r ≠ p) →
    (mutateCells f h passed).getD r [] = h.getD r [] := by
  intro passed
  induction passed with
  | nil => intro h r _; rfl
  | cons p ps ih =>
    intro h r hne
    have hrp : r ≠ p := hne p (List.mem_cons_self _ _)
    have hrec := ih (match f p with | some bs => h.set p bs | none => h) r
      fun q hq => hne q (List.mem_cons_of_mem _ hq)
    simp only [mutateCells]
    rw [hrec]
    cases f p with
    | none => rfl
    | some bs =>
      simp only
      rw [List.getD_eq_getElem?_getD, List.getD_eq_getElem?_getD,
        List.getElem?_set_ne (Ne.symm hrp)]

theorem refGetS_congr {h1 h0 : List (List Nat)} :
    ∀ (tr : List (Nat × Int)),
    (∀ x ∈ tr, h1.getD x.1 [] = h0.getD x.1 []) →
    ∀ k, refGetS h1 tr k = refGetS h0 tr k := by
  intro tr
  induction tr with
  | nil => intro _ k; rfl
  | cons x xs ih =>
    intro hpres k
    have hx := hpres x (List.mem_cons_self _ _)
    simp only [refGetS, hx]
    split_ifs
    · rfl
    · exact ih (fun y hy => hpres y (List.mem_cons_of_mem _ hy)) k
    · rfl

/-- C8: ForEach hands the callback defensive copies of the key bytes:
for every state whose tree references lie in the heap and every mutation
the callback performs on the slices it received, the contents of every
cell referenced by the tree are unchanged, so the traversal sequence and
the Has/Get lookup results for every logical key are identical to those
of a run whose callback performs no mutation. -/
theorem claim_C8 (st : SState) (f : Nat → Option (List Nat))
    (hWF : ∀ x ∈ st.tree, x.1 < st.heap.length) :
    (∀ x ∈ st.tree,
      (mutateCells f (forEachClone st.heap st.tree).1
        (forEachClone st.heap st.tree).2).getD x.1 [] = st.heap.getD x.1 []) ∧
    visitSeq (mutateCells f (forEachClone st.heap st.tree).1
      (forEachClone st.heap st.tree).2) st.tree = visitSeq st.heap st.tree ∧
    (∀ k, refGetS (mutateCells f (forEachClone st.heap st.tree).1
      (forEachClone st.heap st.tree).2) st.tree k = refGetS st.heap st.tree k) ∧
    (∀ k, Has (mutateCells f (forEachClone st.heap st.tree).1
      (forEachClone st.heap st.tree).2) st.tree k = Has st.heap st.tree k) := by
  obtain ⟨⟨ext, hext⟩, hge⟩ := forEachClone_spec st.tree st.heap
  have hpres : ∀ x ∈ st.tree,
      (mutateCells f (forEachClone st.heap st.tree).1
        (forEachClone st.heap st.tree).2).getD x.1 [] = st.heap.getD x.1 [] := by
    intro x hx
    have hlt := hWF x hx
    rw [mutateCells_preserve f _ _ _ fun p hp => by
      have := hge p hp
      omega]
    rw [hext, List.getD_append _ _ _ _ hlt]
  have hget := refGetS_congr st.tree hpres
  refine ⟨hpres, ?_, hget, ?_⟩
  · refine List.map_congr_left ?_
    intro x hx
    rw [hpres x hx]
  · intro k
    unfold Has
    rw [hget k]

/-- C8 witness: a two-key state with a callback mutation writing [9] into
every slice it received. -/
theorem claim_C8_witness :
    (∀ x ∈ (⟨[[1], [2]], [(0, 5), (1, 6)]⟩ : SState).tree,
      x.1 < (⟨[[1], [2]], [(0, 5), (1, 6)]⟩ : SState).heap.length) ∧
    ((∀ x ∈ (⟨[[1], [2]], [(0, 5), (1, 6)]⟩ : SState).tree,
      (mutateCells (fun _ => some [9])
        (forEachClone [[1], [2]] [(0, 5), (1, 6)]).1
        (forEachClone [[1], [2]] [(0, 5), (1, 6)]).2).getD x.1 [] =
        List.getD [[1], [2]] x.1 []) ∧
    visitSeq (mutateCells (fun _ => some [9])
        (forEachClone [[1], [2]] [(0, 5), (1, 6)]).1
        (forEachClone [[1], [2]] [(0, 5), (1, 6)]).2) [(0, 5), (1, 6)] =
      visitSeq [[1], [2]] [(0, 5), (1, 6)] ∧
    (∀ k, refGetS (mutateCells (fun _ => some [9])
        (forEachClone [[1], [2]] [(0, 5), (1, 6)]).1
        (forEachClone [[1], [2]] [(0, 5), (1, 6)]).2) [(0, 5), (1, 6)] k =
      refGetS [[1], [2]] [(0, 5), (1, 6)] k) ∧
    (∀ k, Has (mutateCells (fun _ => some [9])
        (forEachClone [[1], [2]] [(0, 5), (1, 6)]).1
        (forEachClone [[1], [2]] [(0, 5), (1, 6)]).2) [(0, 5), (1, 6)] k =
      Has [[1], [2]] [(0, 5), (1, 6)] k)) :=
  ⟨by decide, claim_C8 ⟨[[1], [2]], [(0, 5), (1, 6)]⟩ (fun _ => some [9])
    (by decide)⟩

end TTLSlice
